import Mathlib

/-!
Verification of the schema-compression library (`sc`): a shallow embedding of
`sc/schema.py` and `sc/compress/{greedy,gurobi}.py` in Lean 4, with theorems
settling the specification claims about the schema model, the greedy seed
rendering, the ILP builder's structural constraints, the decoder, and the
compression driver's failure semantics.

Python strings are modelled as Lean `String`, Python lists as Lean `List`,
Python sets as `Finset`, and `collections.Counter` as an association list
updated in insertion order.  Fallible Python code (attribute errors, key
errors, index errors) is modelled with `Option`.
-/

namespace SC

/-! ### `collections.Counter`, modelled as an insertion-ordered association list -/

/-- One `Counter.update([n])` step: increment the entry for `n`,
appending a fresh entry when `n` is not yet a key. -/
def counterUpdate : List (String × Nat) → String → List (String × Nat)
  | [], n => [(n, 1)]
  | (k, v) :: rest, n =>
    if k = n then (k, v + 1) :: rest else (k, v) :: counterUpdate rest n

/-- Lookup `Counter[n]`: missing keys count as zero. -/
def counterGet (cnt : List (String × Nat)) (n : String) : Nat :=
  ((cnt.find? (fun e => e.1 = n)).map (fun e => e.2)).getD 0

/-- Fold a list of strings into a counter, one `update` per element. -/
def counterAddList (cnt : List (String × Nat)) (l : List String) :
    List (String × Nat) :=
  l.foldl counterUpdate cnt

/-! ### The schema data model (`sc/schema.py`) -/

/-- Embeds `sc.schema.Column`: a typed table column. -/
structure Column where
  name : String
  type : String
  annotations : List String
  merged : Bool
  deriving DecidableEq, Repr

/-- Embeds `sc.schema.Table`: a named list of columns. -/
structure Table where
  name : String
  columns : List Column
  deriving DecidableEq, Repr

/-- Embeds `sc.schema.PrimaryKey`. -/
structure PrimaryKey where
  table : String
  columns : List String
  deriving DecidableEq, Repr

/-- Embeds `sc.schema.ForeignKey`. -/
structure ForeignKey where
  from_table : String
  from_columns : List String
  to_table : String
  to_columns : List String
  deriving DecidableEq, Repr

/-- Embeds `Table.as_predicate`. -/
def Table.as_predicate (t : Table) : String :=
  "table " ++ t.name

/-- Embeds `sc.schema.Schema` after `__init__`: tables (with absorbed single-column
key annotations), the residual multi-column keys, and the cached column-name
counter. -/
structure Schema where
  tables : List Table
  pkeys : List PrimaryKey
  fkeys : List ForeignKey
  column_count : List (String × Nat)
  deriving DecidableEq, Repr

/-- Inner loop of `Schema._add_annotation`: append `ann` to the first column
called `colName` (Python `break` after the first hit). -/
def addAnnCols : List Column → String → String → List Column
  | [], _, _ => []
  | c :: rest, colName, ann =>
    if c.name = colName then
      { c with annotations := c.annotations ++ [ann] } :: rest
    else
      c :: addAnnCols rest colName ann

/-- Embeds `Schema._add_annotation`: find the first table called `tblName` and add
`ann` to its first column called `colName`. -/
def addAnn : List Table → String → String → String → List Table
  | [], _, _, _ => []
  | t :: rest, tblName, colName, ann =>
    if t.name = tblName then
      { t with columns := addAnnCols t.columns colName ann } :: rest
    else
      t :: addAnn rest tblName colName ann

/-- All column names of a table list, in presentation order. -/
def allColumnNames (tables : List Table) : List String :=
  tables.flatMap (fun t => t.columns.map (fun c => c.name))

/-- One step of the `__init__` loop over primary keys: a single-column key is
absorbed as the annotation `primary key`; others are kept. -/
def pkeyStep (st : List Table × List PrimaryKey) (pk : PrimaryKey) :
    List Table × List PrimaryKey :=
  match pk.columns with
  | [col] => (addAnn st.1 pk.table col "primary key", st.2)
  | _ => (st.1, st.2 ++ [pk])

/-- One step of the `__init__` loop over foreign keys.  A key with a single
source column is absorbed as an annotation on that column; the annotation text
reads `fkey.to_columns[0]`, which raises `IndexError` (modelled as `none`)
when the target column list is empty. -/
def fkeyStep (st : Option (List Table × List ForeignKey)) (fk : ForeignKey) :
    Option (List Table × List ForeignKey) :=
  match st with
  | none => none
  | some (tbs, rest) =>
    match fk.from_columns with
    | [fcol] =>
      match fk.to_columns with
      | [] => none
      | tcol :: _ =>
        let ann := "foreign key (" ++ fcol ++ ") references "
          ++ fk.to_table ++ "(" ++ tcol ++ ")"
        some (addAnn tbs fk.from_table fcol ann, rest)
    | _ => some (tbs, rest ++ [fk])

/-- Embeds `Schema.__init__(tables, pkeys, fkeys)`: cache the column-name counter,
absorb single-column keys as annotations, and keep multi-column keys. -/
def schemaInit (tables : List Table) (pkeys : List PrimaryKey)
    (fkeys : List ForeignKey) : Option Schema :=
  let cnt := counterAddList [] (allColumnNames tables)
  let p := pkeys.foldl pkeyStep (tables, [])
  (fkeys.foldl fkeyStep (some (p.1, []))).map
    (fun q =>
      { tables := q.1, pkeys := p.2, fkeys := q.2, column_count := cnt })

/-- Embeds `Schema.get_columns`. -/
def Schema.get_columns (s : Schema) : List Column :=
  s.tables.flatMap (fun t => t.columns)

/-- Embeds `Schema.get_annotations`, as the set it builds. -/
def Schema.annSet (s : Schema) : Finset String :=
  (s.tables.flatMap (fun t => t.columns.flatMap (fun c => c.annotations))).toFinset

/-- Embeds `Schema._is_ambiguous`: reads the cached counter. -/
def Schema.is_ambiguous (s : Schema) (colName : String) : Bool :=
  counterGet s.column_count colName > 1

/-- Embeds `Schema._full_name`: qualify by the table name when ambiguous. -/
def Schema.full_name (s : Schema) (t : Table) (c : Column) : String :=
  if s.is_ambiguous c.name then t.name ++ "." ++ c.name else c.name

/-- Embeds `Schema.get_column_names`. -/
def Schema.get_column_names (s : Schema) : List String :=
  s.tables.flatMap (fun t => t.columns.map (fun c => s.full_name t c))

/-! ### `Schema.get_facts` (`schema.py` lines 154-193)

The two Python sets are modelled as `Finset (String × String)`; the
`false_facts.remove(true_fact)` call raises `KeyError` when the pair is
absent, so the removal loop is an `Option`-valued fold. -/

/-- All annotations of the schema, deduplicated (`get_annotations` builds a
set). -/
def Schema.annsList (s : Schema) : List String :=
  (s.tables.flatMap (fun t => t.columns.flatMap (fun c => c.annotations))).dedup

/-- The cross product seeding the false facts: every table predicate paired
with every column name of the schema. -/
def crossPairs (s : Schema) : List (String × String) :=
  s.tables.flatMap (fun t =>
    s.get_columns.map (fun c => (t.as_predicate, c.name)))

/-- The actual table-column associations (the true membership facts). -/
def membPairs (s : Schema) : List (String × String) :=
  s.tables.flatMap (fun t =>
    t.columns.map (fun c => (t.as_predicate, c.name)))

/-- One iteration of the ownership loop: add the pair to the true facts and
remove it from the false facts, failing (Python `KeyError`) when absent. -/
def removeStep
    (st : Option (Finset (String × String) × Finset (String × String)))
    (pair : String × String) :
    Option (Finset (String × String) × Finset (String × String)) :=
  match st with
  | none => none
  | some (tf, ff) =>
    if pair ∈ ff then some (insert pair tf, ff.erase pair) else none

/-- Column-annotation pairs added to the true facts: the annotation is
declared on the column. -/
def trueAnnFacts (s : Schema) : Finset (String × String) :=
  (s.annsList.flatMap (fun a =>
    s.get_columns.filterMap (fun c =>
      if a ∈ c.annotations then some (c.name, a) else none))).toFinset

/-- Column-annotation pairs added to the false facts: the annotation occurs
in the schema but is not declared on the column. -/
def falseAnnFacts (s : Schema) : Finset (String × String) :=
  (s.annsList.flatMap (fun a =>
    s.get_columns.filterMap (fun c =>
      if a ∈ c.annotations then none else some (c.name, a)))).toFinset

/-- Embeds `Schema.get_facts`: the pair (true facts, false facts), or `none` when
the `false_facts.remove` call raises. -/
def Schema.get_facts (s : Schema) :
    Option (Finset (String × String) × Finset (String × String)) :=
  ((membPairs s).foldl removeStep (some (∅, (crossPairs s).toFinset))).map
    (fun r => (r.1 ∪ trueAnnFacts s, r.2 ∪ falseAnnFacts s))

/-- Embeds `Schema.get_identifiers`: every string occurring in a fact. -/
def Schema.get_identifiers (s : Schema) : Option (Finset String) :=
  s.get_facts.map (fun r =>
    (r.1 ∪ r.2).image (fun p => p.1) ∪ (r.1 ∪ r.2).image (fun p => p.2))

/-! ### `merge_columns` (`schema.py` lines 40-61 and 209-212) -/

/-- The grouping key of `Table.merge_columns`:
`','.join(col.annotations) + col.type`. -/
def colKey (c : Column) : String :=
  String.intercalate "," c.annotations ++ c.type

/-- Keys of `key2cols` in first-appearance order (a `defaultdict` preserves
insertion order). -/
def firstKeysAux (seen : List String) : List Column → List String
  | [] => []
  | c :: rest =>
    if colKey c ∈ seen then firstKeysAux seen rest
    else colKey c :: firstKeysAux (colKey c :: seen) rest

/-- Keys of the column grouping, in first-appearance order. -/
def firstKeys (cols : List Column) : List String :=
  firstKeysAux [] cols

/-- The merged column built from one group (`cols` is nonempty at every call
site; the empty case is dead code). -/
def mkGroupCol : List Column → Column
  | [] => ⟨"", "", [], false⟩
  | c :: rest =>
    let joined := String.intercalate " " ((c :: rest).map (fun x => x.name))
    { name := if rest.isEmpty then joined else "[" ++ joined ++ "]"
      type := c.type
      annotations := c.annotations
      merged := !rest.isEmpty }

/-- Embeds `Table.merge_columns` on the column list: group by `colKey` (keys in
first-appearance order, members in original order) and build one column per
group. -/
def mergeCols (cols : List Column) : List Column :=
  (firstKeys cols).map (fun k => mkGroupCol (cols.filter (fun c => colKey c == k)))

/-- Embeds `Table.merge_columns`. -/
def Table.merge_columns (t : Table) : Table :=
  { t with columns := mergeCols t.columns }

/-- Embeds `Schema.merge_columns`. -/
def Schema.merge_columns (s : Schema) : Schema :=
  { s with tables := s.tables.map Table.merge_columns }

/-! ### `Schema.split` (`schema.py` lines 214-227) -/

/-- Embeds `Schema.split`: assert that no explicit (multi-column) keys remain
(`AssertionError` modelled as `none`), then build one single-table schema per
table, in order. -/
def Schema.split (s : Schema) : Option (List Schema) :=
  if s.pkeys.isEmpty && s.fkeys.isEmpty then
    s.tables.mapM (fun t => schemaInit [t] [] [])
  else none

/-! ### `Schema.prefixes` (`schema.py` lines 237-251, 273-283, 313-351)

The tokenizer oracle `nr_tokens(llm_name, text)` is external (`sc/llm.py`
wraps `tiktoken`); it is modelled as an arbitrary function
`tok : String → Nat`. -/

/-- Take the first `n` characters of a string (Python `s[:n]`). -/
def strTake (s : String) (n : Nat) : String :=
  ⟨s.data.take n⟩

/-- All prefixes of lengths `2 .. len(ident)` of an identifier, in order
(`Schema._count_prefixes` counts exactly these). -/
def prefixListOf (ident : String) : List String :=
  (List.range' 2 (ident.length - 1)).map (fun l => strTake ident l)

/-- Identifier occurrences visited by `Schema._prefix_frequency`, with
multiplicity and in visit order: per table its name, then per column the
column name followed by its annotations. -/
def identOccs (s : Schema) : List String :=
  s.tables.flatMap (fun t =>
    t.name :: t.columns.flatMap (fun c => c.name :: c.annotations))

/-- Embeds `Schema._prefix_frequency`: one counter update per prefix of each
identifier occurrence. -/
def prefixFrequency (s : Schema) : List (String × Nat) :=
  counterAddList [] ((identOccs s).flatMap prefixListOf)

/-- The dictionary comprehension opening `Schema._prune_prefixes`: keep
entries with count above one whose key tokenizes to more than one token. -/
def prunedInit (cnt : List (String × Nat)) (tok : String → Nat) :
    List (String × Nat) :=
  cnt.filter (fun e => decide (1 < e.2) && decide (1 < tok e.1))

/-- Inner deletion loop of `Schema._prune_prefixes` for one dominating key
`pre`: delete every proper prefix of `pre` that is still present and whose
count does not exceed the count of `pre`. -/
def pruneStep (cnt : List (String × Nat)) (pruned : List (String × Nat))
    (pre : String) : List (String × Nat) :=
  (List.range pre.length).foldl
    (fun pr l =>
      let sub := strTake pre l
      if pr.any (fun e => e.1 == sub) then
        if counterGet cnt sub ≤ counterGet cnt pre then
          pr.filter (fun e => e.1 != sub)
        else pr
      else pr)
    pruned

/-- Embeds `Schema._prune_prefixes`. -/
def prunePrefixes (cnt : List (String × Nat)) (tok : String → Nat) :
    List (String × Nat) :=
  (cnt.map (fun e => e.1)).foldl (pruneStep cnt) (prunedInit cnt tok)

/-- The descending-count order used by `Schema.prefixes`
(Python `sorted(..., key=i[1], reverse=True)`). -/
def countGe (a b : String × Nat) : Prop :=
  b.2 ≤ a.2

instance : DecidableRel countGe := fun a b => Nat.decLe b.2 a.2

instance : IsTotal (String × Nat) countGe :=
  ⟨fun a b => Nat.le_total b.2 a.2⟩

instance : IsTrans (String × Nat) countGe :=
  ⟨fun _ _ _ h1 h2 => Nat.le_trans h2 h1⟩

/-- Embeds `Schema.prefixes`: prune, then sort by count descending; ties are
broken arbitrarily here, which the claims do not depend on. -/
def Schema.prefixes (s : Schema) (tok : String → Nat) : List String :=
  ((prunePrefixes (prefixFrequency s) tok).insertionSort countGe).map
    (fun e => e.1)

/-- Specification-side count: how many identifier occurrences of the schema
have `p` as a prefix. -/
def occCount (s : Schema) (p : String) : Nat :=
  (identOccs s).countP (fun idf => p.data.isPrefixOf idf.data)

/-! ### The greedy renderer (`greedy.py`) and the naive ILP seed
(`gurobi.py` lines 562-585) -/

/-- Embeds `sc.compress.greedy.greedy_parts`.  With `full_names=True` the
body evaluates `schema.full_name(table, column)`, but `Schema` defines only
`_full_name`; in Python this raises `AttributeError` at the first column
visited, modelled as `none`. -/
def greedyParts (s : Schema) (fullNames : Bool) : Option (List String) :=
  s.tables.foldl
    (fun acc t =>
      match acc with
      | none => none
      | some parts =>
        (t.columns.foldl
          (fun acc2 c =>
            match acc2 with
            | none => none
            | some ps =>
              if fullNames then none
              else some (ps ++ [c.name, "("] ++ c.annotations ++ [")"]))
          (some (parts ++ [t.as_predicate, "("]))).map
          (fun ps => ps ++ [")"]))
    (some [])

/-- One step of the slot-packing loop of `IlpCompression._naive_solution`:
state is (completed slots, tokens of the current slot). -/
def packStep (st : List (List String) × List String) (part : String) :
    List (List String) × List String :=
  if part = "(" then (st.1, st.2 ++ ["("])
  else if part = ")" then
    if ")" ∈ st.2 then (st.1 ++ [st.2], [")"]) else (st.1, st.2 ++ [")"])
  else (st.1 ++ [st.2], [part])

/-- Pack a flat part list into slots (`_naive_solution` after the greedy
call): close the last slot and drop the initial empty slot. -/
def packParts (parts : List String) : List (List String) :=
  let st := parts.foldl packStep ([], [])
  (st.1 ++ [st.2]).drop 1

/-- Embeds `IlpCompression._naive_solution`. -/
def naiveSolution (s : Schema) : Option (List (List String)) :=
  (greedyParts s true).map packParts

/-- The `max_length` field set by `IlpCompression.__init__`: the number of
slots of the naive solution. -/
def ilpMaxLength (s : Schema) : Option Nat :=
  (naiveSolution s).map List.length

/-! ### Parenthesis constraints of the ILP builder
(`gurobi.py` lines 172-187) -/

/-- Sum of the opening-parenthesis decision variables over slots `0 .. k-1`. -/
def openSum (x : Nat → String → Nat) (k : Nat) : Nat :=
  (Finset.range k).sum (fun p => x p "(")

/-- Sum of the closing-parenthesis decision variables over slots `0 .. k-1`. -/
def closeSum (x : Nat → String → Nat) (k : Nat) : Nat :=
  (Finset.range k).sum (fun p => x p ")")

/-- The decision variables are binary (Gurobi `vtype=GRB.BINARY`). -/
def binaryParen (L : Nat) (x : Nat → String → Nat) : Prop :=
  ∀ p < L, x p "(" ≤ 1 ∧ x p ")" ≤ 1

/-- The two constraint families added at `gurobi.py` lines 172-187: total
balance of parentheses, and per-prefix dominance of openings. -/
def parenConstraints (L : Nat) (x : Nat → String → Nat) : Prop :=
  openSum x L = closeSum x L ∧
    ∀ pos < L, closeSum x (pos + 1) ≤ openSum x (pos + 1)

/-- The parenthesis tokens the decoder emits for the first `k` slots, in
order: `(` before `)` within one slot, as in `_extract_solution`. -/
def parenTokens (x : Nat → String → Nat) (k : Nat) : List String :=
  (List.range k).flatMap (fun p =>
    (if 0 < x p "(" then ["("] else []) ++ (if 0 < x p ")" then [")"] else []))

/-- Run a Dyck-language depth counter over a token list, failing when a
closing parenthesis appears at depth zero. -/
def parenDepthRun : List String → Nat → Option Nat
  | [], d => some d
  | t :: rest, d =>
    if t = "(" then parenDepthRun rest (d + 1)
    else if t = ")" then
      match d with
      | 0 => none
      | e + 1 => parenDepthRun rest e
    else parenDepthRun rest d

/-- A token list has balanced parentheses: no prefix closes more than it has
opened, and the final depth is zero. -/
def balancedParens (l : List String) : Prop :=
  parenDepthRun l 0 = some 0

/-! ### The decoder (`gurobi.py` lines 494-534) -/

/-- Replace every occurrence of `pat` by `rep`, scanning left to right
(fuel-driven so that the kernel can evaluate it; the fuel `l.length` always
suffices for nonempty `pat`, and all call sites pass nonempty patterns). -/
def replaceFuel (pat rep : List Char) : Nat → List Char → List Char
  | 0, l => l
  | _ + 1, [] => []
  | f + 1, c :: cs =>
    if pat.isPrefixOf (c :: cs) then
      rep ++ replaceFuel pat rep f ((c :: cs).drop pat.length)
    else c :: replaceFuel pat rep f cs

/-- Python `s.replace(pat, rep)` for nonempty `pat`. -/
def strReplace (s pat rep : String) : String :=
  ⟨replaceFuel pat.data rep.data s.data.length s.data⟩

/-- Python `s.rstrip()`: drop trailing whitespace. -/
def strRstrip (s : String) : String :=
  ⟨(s.data.reverse.dropWhile Char.isWhitespace).reverse⟩

/-- Python `pat in hay` on strings. -/
def strContains (hay pat : String) : Bool :=
  decide (pat.data <:+: hay.data)

/-- Keys of `representation_vars[pos][token]` in insertion order: the empty
shortcut first, then every shortcut whose text occurs in the token
(`_variables`, lines 650-669). -/
def repShortDomain (short2text : List (String × String)) (token : String) :
    List String :=
  "" :: (short2text.filter (fun e => strContains token e.2)).map (fun e => e.1)

/-- Lookup `short2text[short]` (the shortcut's text). -/
def shortText (short2text : List (String × String)) (short : String) :
    String :=
  ((short2text.find? (fun e => e.1 = short)).map (fun e => e.2)).getD ""

/-- The written form of a token under a representation choice:
`token.replace(short_text, short)`, where the empty shortcut writes the token
unchanged (Python `replace('', '')` is the identity). -/
def repText (short2text : List (String × String)) (token short : String) :
    String :=
  if short = "" then token
  else strReplace token (shortText short2text short) short

/-- The per-slot identifier parts emitted by `_extract_solution`: for each
identifier in order, for each representation key in order, the written form
when the representation variable is set. -/
def slotIdParts (short2text : List (String × String)) (ids : List String)
    (repSel : Nat → String → String → Bool) (pos : Nat) : List String :=
  ids.flatMap (fun token =>
    (repShortDomain short2text token).flatMap (fun short =>
      if repSel pos token short then [repText short2text token short] else []))

/-- The per-slot parenthesis parts: `(` checked before `)`. -/
def slotParens (decSel : Nat → String → Bool) (pos : Nat) : List String :=
  (if decSel pos "(" then ["("] else []) ++ (if decSel pos ")" then [")"] else [])

/-- Embeds `IlpCompression._extract_solution`: shortcut preamble, then per
slot the identifier parts, then the parentheses — or a single space when no
parenthesis was emitted (`nr_separators == 0`) — then collapse `" )"` to
`")"` and strip trailing whitespace. -/
def extractSolution (short2text : List (String × String)) (ids : List String)
    (L : Nat) (shortSel : String → Bool)
    (repSel : Nat → String → String → Bool)
    (decSel : Nat → String → Bool) : String :=
  let preamble := short2text.flatMap (fun e =>
    if shortSel e.1 then [e.1 ++ " substitutes " ++ e.2 ++ " "] else [])
  let body := (List.range L).flatMap (fun pos =>
    slotIdParts short2text ids repSel pos ++
      (if (slotParens decSel pos).isEmpty then [" "]
       else slotParens decSel pos))
  strRstrip (strReplace (String.join (preamble ++ body)) " )" ")")

/-- Decoder as worded by the claim: a space is emitted exactly at slots
where *no identifier and no parenthesis* is active. -/
def decodeClaimed (short2text : List (String × String)) (ids : List String)
    (L : Nat) (shortSel : String → Bool)
    (repSel : Nat → String → String → Bool)
    (decSel : Nat → String → Bool) : String :=
  let preamble := short2text.flatMap (fun e =>
    if shortSel e.1 then [e.1 ++ " substitutes " ++ e.2 ++ " "] else [])
  let body := (List.range L).flatMap (fun pos =>
    slotIdParts short2text ids repSel pos ++ slotParens decSel pos ++
      (if (slotIdParts short2text ids repSel pos).isEmpty ∧
          ¬ decSel pos "(" ∧ ¬ decSel pos ")" then [" "] else []))
  strRstrip (strReplace (String.join (preamble ++ body)) " )" ")")

/-- Decoder as worded by the amended claim: a space is emitted exactly at
slots where *no parenthesis* is active, whether or not an identifier was
written there. -/
def decodeAmended (short2text : List (String × String)) (ids : List String)
    (L : Nat) (shortSel : String → Bool)
    (repSel : Nat → String → String → Bool)
    (decSel : Nat → String → Bool) : String :=
  let preamble := short2text.flatMap (fun e =>
    if shortSel e.1 then [e.1 ++ " substitutes " ++ e.2 ++ " "] else [])
  let body := (List.range L).flatMap (fun pos =>
    slotIdParts short2text ids repSel pos ++ slotParens decSel pos ++
      (if ¬ decSel pos "(" ∧ ¬ decSel pos ")" then [" "] else []))
  strRstrip (strReplace (String.join (preamble ++ body)) " )" ")")

/-! ### The solver driver (`gurobi.py` lines 81-116) -/

/-- Configuration fields of `IlpCompression` used by `compress`. -/
structure IlpConfig where
  short2text : List (String × String)
  ids : List String
  max_length : Nat
  max_depth : Nat
  timeout_s : Nat
  context_k : Nat
  start : Bool
  hints : Bool
  merge : Bool

/-- The state of the solved Gurobi model, abstracted: statistics plus the
binary variable values of the best incumbent (meaningful only when
`solCount > 0`).  The MIP gap is kept opaque (`G`). -/
structure SolverState (G : Type) where
  solCount : Nat
  numVars : Nat
  numConstrs : Nat
  mipGap : G
  shortSel : String → Bool
  repSel : Nat → String → String → Bool
  decSel : Nat → String → Bool

/-- The result dictionary returned by `compress`. -/
structure CompressResult (G : Type) where
  solution : String
  nr_variables : Nat
  nr_constraints : Nat
  mip_gap : G
  max_length : Nat
  max_depth : Nat
  timeout_s : Nat
  context_k : Nat
  start : Bool
  hints : Bool
  merge : Bool
  solved : Bool

/-- Embeds the tail of `IlpCompression.compress` (after `model.optimize()`):
decode when an incumbent exists, otherwise return the empty solution, and
always populate the statistics fields. -/
def compress {G : Type} (cfg : IlpConfig) (st : SolverState G) :
    CompressResult G :=
  { solution :=
      if 0 < st.solCount then
        extractSolution cfg.short2text cfg.ids cfg.max_length st.shortSel
          st.repSel st.decSel
      else ""
    nr_variables := st.numVars
    nr_constraints := st.numConstrs
    mip_gap := st.mipGap
    max_length := cfg.max_length
    max_depth := cfg.max_depth
    timeout_s := cfg.timeout_s
    context_k := cfg.context_k
    start := cfg.start
    hints := cfg.hints
    merge := cfg.merge
    solved := 0 < st.solCount }

/-! ### Pruning lookups (`gurobi.py` lines 457-492) -/

/-- Checks that the per-position context-variable lookups of `_add_pruning`
succeed: `context_vars[pos][depth][col]` is keyed by the identifiers from
`get_identifiers`, while `_add_pruning` iterates over
`schema.get_column_names()`. -/
def pruningColumnKeysOkB (s : Schema) : Bool :=
  match s.get_identifiers with
  | none => false
  | some idset => s.get_column_names.all (fun n => decide (n ∈ idset))

/-! ### Specification-side renderings and concrete schemas -/

/-- Rendering rule as worded by claim C6: qualify a column iff its bare name
occurs in more than one *table*. -/
def claimColumnNames (s : Schema) : List String :=
  s.tables.flatMap (fun t =>
    t.columns.map (fun c =>
      if 1 < (s.tables.filter
          (fun t2 => t2.columns.any (fun c2 => c2.name == c.name))).length
      then t.name ++ "." ++ c.name
      else c.name))

/-- Clear the merged flag of every column (what a second `merge_columns`
call does to the column metadata). -/
def clearMerged (s : Schema) : Schema :=
  { s with tables := s.tables.map (fun t =>
      { t with columns := t.columns.map (fun c => { c with merged := false }) }) }

/-- Rendering rule of the amended claim C6: qualify a column iff its bare
name occurs more than once among all columns of the schema. -/
def amendedColumnNames (s : Schema) : List String :=
  s.tables.flatMap (fun t =>
    t.columns.map (fun c =>
      if 1 < (allColumnNames s.tables).count c.name
      then t.name ++ "." ++ c.name
      else c.name))

/-- Unordered coincidence of two fact pairs. -/
def samePair (p q : String × String) : Prop :=
  (p.1 = q.1 ∧ p.2 = q.2) ∨ (p.1 = q.2 ∧ p.2 = q.1)

/-- The single-table schema `Schema([table], [], [])` built by `split`. -/
def singleSchema (t : Table) : Schema :=
  { tables := [t], pkeys := [], fkeys := []
    column_count := counterAddList [] (allColumnNames [t]) }

/-- Fallback schema value for `Option.getD`. -/
def emptySchema : Schema :=
  { tables := [], pkeys := [], fkeys := [], column_count := [] }

/-- Scenario S1 of the specification: one table `t` with a single column `c`
of type `int`. -/
def tablesS1 : List Table :=
  [{ name := "t"
     columns := [{ name := "c", type := "int", annotations := ["int"], merged := false }] }]

/-- The S1 schema after construction. -/
def schemaS1 : Schema :=
  (schemaInit tablesS1 [] []).getD emptySchema

/-- Two tables sharing the bare column name `c`; only the first declares the
annotation `x`. -/
def tablesDupCol : List Table :=
  [{ name := "t1"
     columns := [{ name := "c", type := "int", annotations := ["x"], merged := false }] },
   { name := "t2"
     columns := [{ name := "c", type := "int", annotations := [], merged := false }] }]

/-- The duplicated-column-name schema after construction. -/
def schemaDupCol : Schema :=
  (schemaInit tablesDupCol [] []).getD emptySchema

/-- One table containing two columns with the same bare name `c`. -/
def tablesDupInTable : List Table :=
  [{ name := "t", columns :=
      [{ name := "c", type := "int", annotations := [], merged := false },
       { name := "c", type := "text", annotations := [], merged := false }] }]

/-- The duplicate-name-within-one-table schema after construction. -/
def schemaDupInTable : Schema :=
  (schemaInit tablesDupInTable [] []).getD emptySchema

/-- A table with two columns of equal type and annotations (merge groups
them). -/
def tablesMergeable : List Table :=
  [{ name := "t", columns :=
      [{ name := "a", type := "int", annotations := ["not null"], merged := false },
       { name := "b", type := "int", annotations := ["not null"], merged := false }] }]

/-- The mergeable schema after construction. -/
def schemaMergeable : Schema :=
  (schemaInit tablesMergeable [] []).getD emptySchema

/-! ## Theorems

All definitions above embed the source; everything below proves properties
about them. -/

/-! ### Counter lemmas -/

theorem counterGet_update (cnt : List (String × Nat)) (m n : String) :
    counterGet (counterUpdate cnt m) n
      = counterGet cnt n + (if m = n then 1 else 0) := by
  induction cnt with
  | nil =>
    by_cases h : m = n <;> simp [counterUpdate, counterGet, List.find?, h]
  | cons e rest ih =>
    obtain ⟨k, v⟩ := e
    by_cases hk : k = m
    · subst hk
      by_cases h : k = n <;>
        simp [counterUpdate, counterGet, List.find?, h]
    · by_cases h : k = n
      · subst h
        have hmn : ¬ m = k := fun he => hk he.symm
        simp [counterUpdate, hk, counterGet, List.find?, hmn]
      · simp only [counterUpdate, if_neg hk]
        simpa [counterGet, List.find?, h] using ih

theorem counterGet_addList (cnt : List (String × Nat)) (l : List String)
    (n : String) :
    counterGet (counterAddList cnt l) n = counterGet cnt n + l.count n := by
  induction l generalizing cnt with
  | nil => simp [counterAddList]
  | cons m rest ih =>
    have : counterAddList cnt (m :: rest)
        = counterAddList (counterUpdate cnt m) rest := rfl
    rw [this, ih, counterGet_update, List.count_cons]
    simp only [beq_iff_eq]
    by_cases h : m = n
    · subst h
      simp only [if_pos rfl]
      omega
    · have h' : ¬ n = m := fun he => h he.symm
      simp only [if_neg h, if_neg h']
      omega

theorem counterGet_nil (n : String) : counterGet [] n = 0 := rfl

/-- The value of a counter built from scratch is the multiset count. -/
theorem counterGet_build (l : List String) (n : String) :
    counterGet (counterAddList [] l) n = l.count n := by
  have h := counterGet_addList [] l n
  simpa [counterGet, List.find?] using h

/-- The keys of a counter stay distinct under updates. -/
theorem counterUpdate_keys_nodup (cnt : List (String × Nat)) (n : String)
    (h : (cnt.map (fun e => e.1)).Nodup) :
    ((counterUpdate cnt n).map (fun e => e.1)).Nodup := by
  induction cnt with
  | nil => simp [counterUpdate]
  | cons e rest ih =>
    obtain ⟨k, v⟩ := e
    simp only [List.map_cons, List.nodup_cons] at h
    by_cases hk : k = n
    · subst hk
      simpa [counterUpdate] using h
    · simp only [counterUpdate, if_neg hk, List.map_cons, List.nodup_cons]
      refine ⟨?_, ih h.2⟩
      intro hmem
      have hsub : ∀ x, x ∈ (counterUpdate rest n).map (fun e => e.1) →
          x ∈ n :: rest.map (fun e => e.1) := by
        clear h ih hmem
        induction rest with
        | nil => intro x hx; simpa [counterUpdate] using hx
        | cons f fr ihf =>
          obtain ⟨fk, fv⟩ := f
          intro x hx
          by_cases hf : fk = n
          · subst hf
            simpa [counterUpdate] using hx
          · simp only [counterUpdate, if_neg hf, List.map_cons,
              List.mem_cons] at hx
            rcases hx with hx | hx
            · simp [hx]
            · have := ihf x hx
              simp only [List.mem_cons] at this ⊢
              tauto
      have := hsub k hmem
      simp only [List.mem_cons] at this
      rcases this with h1 | h1
      · exact hk h1
      · exact h.1 h1

/-! #### Lemmas about the column grouping -/

theorem colKey_mkGroupCol (c : Column) (rest : List Column) :
    colKey (mkGroupCol (c :: rest)) = colKey c := rfl

theorem mem_firstKeysAux (cols : List Column) :
    ∀ (seen : List String) (k : String),
      k ∈ firstKeysAux seen cols ↔ k ∉ seen ∧ ∃ c ∈ cols, colKey c = k := by
  induction cols with
  | nil => intro seen k; simp [firstKeysAux]
  | cons c rest ih =>
    intro seen k
    by_cases hc : colKey c ∈ seen
    · rw [firstKeysAux, if_pos hc, ih]
      constructor
      · rintro ⟨hk, c', hc', hk'⟩
        exact ⟨hk, c', List.mem_cons_of_mem c hc', hk'⟩
      · rintro ⟨hk, c', hc', hk'⟩
        rcases List.mem_cons.1 hc' with h1 | h1
        · subst h1
          exact absurd (hk' ▸ hc) hk
        · exact ⟨hk, c', h1, hk'⟩
    · rw [firstKeysAux, if_neg hc]
      constructor
      · intro hmem
        rcases List.mem_cons.1 hmem with h1 | h1
        · subst h1
          exact ⟨hc, c, List.mem_cons_self c rest, rfl⟩
        · obtain ⟨hk, c', hc', hk'⟩ := (ih _ _).1 h1
          refine ⟨fun hs => hk (List.mem_cons_of_mem _ hs), c',
            List.mem_cons_of_mem c hc', hk'⟩
      · rintro ⟨hk, c', hc', hk'⟩
        rcases List.mem_cons.1 hc' with h1 | h1
        · subst h1
          exact hk' ▸ List.mem_cons_self _ _
        · by_cases he : k = colKey c
          · exact he ▸ List.mem_cons_self _ _
          · refine List.mem_cons_of_mem _ ((ih _ _).2 ⟨?_, c', h1, hk'⟩)
            intro hs
            rcases List.mem_cons.1 hs with h2 | h2
            · exact he h2
            · exact hk h2

theorem nodup_firstKeysAux (cols : List Column) :
    ∀ seen : List String, (firstKeysAux seen cols).Nodup := by
  induction cols with
  | nil => intro seen; simp [firstKeysAux]
  | cons c rest ih =>
    intro seen
    by_cases hc : colKey c ∈ seen
    · rw [firstKeysAux, if_pos hc]; exact ih seen
    · rw [firstKeysAux, if_neg hc]
      refine List.nodup_cons.2 ⟨?_, ih _⟩
      intro hmem
      obtain ⟨hk, -⟩ := (mem_firstKeysAux rest _ _).1 hmem
      exact hk (List.mem_cons_self _ _)

theorem nodup_firstKeys (cols : List Column) : (firstKeys cols).Nodup :=
  nodup_firstKeysAux cols []

theorem firstKeysAux_of_nodup (cols : List Column) :
    ∀ seen : List String, (cols.map colKey).Nodup →
      (∀ c ∈ cols, colKey c ∉ seen) →
      firstKeysAux seen cols = cols.map colKey := by
  induction cols with
  | nil => intro seen _ _; rfl
  | cons c rest ih =>
    intro seen hnd hseen
    have hc : colKey c ∉ seen := hseen c (List.mem_cons_self _ _)
    rw [firstKeysAux, if_neg hc, List.map_cons]
    simp only [List.map_cons, List.nodup_cons] at hnd
    congr 1
    refine ih _ hnd.2 ?_
    intro c' hc' hmem
    rcases List.mem_cons.1 hmem with h1 | h1
    · exact hnd.1 (h1 ▸ List.mem_map_of_mem colKey hc')
    · exact hseen c' (List.mem_cons_of_mem _ hc') h1

theorem firstKeys_of_nodup (cols : List Column)
    (hnd : (cols.map colKey).Nodup) : firstKeys cols = cols.map colKey :=
  firstKeysAux_of_nodup cols [] hnd (by simp)

theorem filter_key_singleton (cols : List Column)
    (hnd : (cols.map colKey).Nodup) :
    ∀ c ∈ cols, cols.filter (fun x => colKey x == colKey c) = [c] := by
  induction cols with
  | nil => intro c hc; cases hc
  | cons d rest ih =>
    simp only [List.map_cons, List.nodup_cons] at hnd
    intro c hc
    rcases List.mem_cons.1 hc with h1 | h1
    · subst h1
      rw [List.filter_cons_of_pos (by simp)]
      have : rest.filter (fun x => colKey x == colKey c) = [] := by
        rw [List.filter_eq_nil_iff]
        intro x hx
        simp only [beq_iff_eq]
        intro he
        exact hnd.1 (he ▸ List.mem_map_of_mem colKey hx)
      rw [this]
    · have hne : colKey d ≠ colKey c := by
        intro he
        exact hnd.1 (he ▸ List.mem_map_of_mem colKey h1)
      rw [List.filter_cons_of_neg (by simpa using hne), ih hnd.2 c h1]

theorem mergeCols_map_colKey (cols : List Column) :
    (mergeCols cols).map colKey = firstKeys cols := by
  unfold mergeCols
  rw [List.map_map]
  have : ∀ k ∈ firstKeys cols,
      (colKey ∘ fun k => mkGroupCol (cols.filter (fun c => colKey c == k))) k
        = k := by
    intro k hk
    obtain ⟨-, c, hc, hck⟩ := (mem_firstKeysAux cols [] k).1 hk
    rcases hf : cols.filter (fun c => colKey c == k) with - | ⟨c', rest'⟩
    · exfalso
      have : c ∈ cols.filter (fun c => colKey c == k) :=
        List.mem_filter.2 ⟨hc, by simpa using hck⟩
      rw [hf] at this
      cases this
    · have hc' : c' ∈ cols.filter (fun c => colKey c == k) := by
        rw [hf]; exact List.mem_cons_self _ _
      have : colKey c' = k := by
        have := (List.mem_filter.1 hc').2
        simpa using this
      simpa [Function.comp, hf, colKey_mkGroupCol] using this
  calc (firstKeys cols).map
        (colKey ∘ fun k => mkGroupCol (cols.filter (fun c => colKey c == k)))
      = (firstKeys cols).map id := List.map_congr_left this
    _ = firstKeys cols := List.map_id _

theorem intercalate_singleton (sep x : String) :
    String.intercalate sep [x] = x := rfl

theorem mkGroupCol_singleton (c : Column) :
    mkGroupCol [c] = { c with merged := false } := by
  simp [mkGroupCol, intercalate_singleton]

theorem mergeCols_of_nodup_keys (cols : List Column)
    (hnd : (cols.map colKey).Nodup) :
    mergeCols cols = cols.map (fun c => { c with merged := false }) := by
  unfold mergeCols
  rw [firstKeys_of_nodup cols hnd, List.map_map]
  refine List.map_congr_left ?_
  intro c hc
  simp only [Function.comp]
  rw [filter_key_singleton cols hnd c hc, mkGroupCol_singleton]

theorem mergeCols_mergeCols (cols : List Column) :
    mergeCols (mergeCols cols)
      = (mergeCols cols).map (fun c => { c with merged := false }) := by
  refine mergeCols_of_nodup_keys _ ?_
  rw [mergeCols_map_colKey]
  exact nodup_firstKeys cols

theorem Table_merge_merge (t : Table) :
    t.merge_columns.merge_columns
      = { t.merge_columns with
          columns := t.merge_columns.columns.map
            (fun c => { c with merged := false }) } := by
  simp [Table.merge_columns, mergeCols_mergeCols]

/-! ### Claim C1: construction of the ILP compressor -/

/-- Claim C1: the claim states that `IlpCompression.__init__` successfully
computes the naive seed rendering for every schema and sets `max_length` to
its slot count.  In the code, `_naive_solution` calls
`greedy_parts(schema, full_names=True)`, which evaluates the non-existent
attribute `schema.full_name` (the class defines only `_full_name`), raising
`AttributeError` as soon as one column is rendered.  Already on the smallest
specification scenario S1 (one table `t` with one column `c int`) the
construction therefore fails, so neither the naive solution nor
`max_length` is ever produced. -/
theorem claim_C1 :
    naiveSolution schemaS1 = none ∧ ilpMaxLength schemaS1 = none := by
  constructor <;> rfl

/-! ### Claim C5: idempotence of `merge_columns` -/

/-- Claim C5 counterexample: applying `merge_columns` twice is *not*
equivalent to applying it once.  On a table with two columns of equal type
and annotations, the first call produces the merged column `[a b]` with
`merged = True`; the second call puts that column into a singleton group
and rebuilds it with `merged = group_size > 1 = False`, so the column lists
differ. -/
theorem claim_C5_counterexample :
    schemaMergeable.merge_columns.merge_columns
      ≠ schemaMergeable.merge_columns := by
  decide

/-- Claim C5 (amended): a second `merge_columns` call leaves every column's
name, type, and annotation list (and the column order) unchanged, but resets
every column's merged flag to `False`; the two results differ exactly on the
merged flag of multi-column groups. -/
theorem claim_C5 (s : Schema) :
    s.merge_columns.merge_columns = clearMerged s.merge_columns := by
  unfold Schema.merge_columns clearMerged
  simp only [List.map_map]
  congr 1
  refine List.map_congr_left ?_
  intro t _
  simp only [Function.comp]
  exact Table_merge_merge t

/-! ### Claim C9: failure semantics of `compress` -/

/-- Claim C9: when the solver finishes with no incumbent (`SolCount = 0`),
`compress` returns the empty solution with `solved = False` and all
statistics fields populated; with at least one incumbent it returns the
decoded solution with `solved = True`. -/
theorem claim_C9 {G : Type} (cfg : IlpConfig) (st : SolverState G) :
    (st.solCount = 0 →
      compress cfg st =
        { solution := "", nr_variables := st.numVars
          nr_constraints := st.numConstrs, mip_gap := st.mipGap
          max_length := cfg.max_length, max_depth := cfg.max_depth
          timeout_s := cfg.timeout_s, context_k := cfg.context_k
          start := cfg.start, hints := cfg.hints, merge := cfg.merge
          solved := false }) ∧
    (0 < st.solCount →
      compress cfg st =
        { solution := extractSolution cfg.short2text cfg.ids cfg.max_length
            st.shortSel st.repSel st.decSel
          nr_variables := st.numVars
          nr_constraints := st.numConstrs, mip_gap := st.mipGap
          max_length := cfg.max_length, max_depth := cfg.max_depth
          timeout_s := cfg.timeout_s, context_k := cfg.context_k
          start := cfg.start, hints := cfg.hints, merge := cfg.merge
          solved := true }) := by
  constructor
  · intro h
    simp [compress, h]
  · intro h
    simp [compress, h, Nat.pos_iff_ne_zero.1 h]

/-- A trivial configuration for the C9 witness. -/
def cfgTriv : IlpConfig :=
  { short2text := [], ids := [], max_length := 0, max_depth := 1
    timeout_s := 300, context_k := 5, start := true, hints := true
    merge := false }

/-- A solver state with no incumbent for the C9 witness. -/
def stTriv : SolverState Nat :=
  { solCount := 0, numVars := 7, numConstrs := 9, mipGap := 1
    shortSel := fun _ => false, repSel := fun _ _ _ => false
    decSel := fun _ _ => false }

/-- Witness for claim C9: a zero-incumbent solver state yields the empty
solution, `solved = false`, and populated statistics. -/
theorem claim_C9_witness :
    compress cfgTriv stTriv =
      { solution := "", nr_variables := 7, nr_constraints := 9, mip_gap := 1
        max_length := 0, max_depth := 1, timeout_s := 300, context_k := 5
        start := true, hints := true, merge := false, solved := false } :=
  (claim_C9 cfgTriv stTriv).1 rfl

/-! ### Claim C4: the decoder -/

/-- Representation selection for the C4 counterexample: the identifier `a`
is written at slot 0 and `b` at slot 1, both in their full form; no
parenthesis is ever active. -/
def repSelAB : Nat → String → String → Bool :=
  fun p t sh =>
    (decide (p = 0) && decide (t = "a") && decide (sh = "")) ||
    (decide (p = 1) && decide (t = "b") && decide (sh = ""))

/-- Claim C4 counterexample: the decoder emits a space after slot 0 even
though the identifier `a` is active there (the space is suppressed only when
a parenthesis is emitted, not when an identifier is), so the output is
`"a b"` and not the `"ab"` that the claimed rule (space only when *no
identifier and no parenthesis* is active) would produce. -/
theorem claim_C4_counterexample :
    extractSolution [] ["a", "b"] 2 (fun _ => false) repSelAB
        (fun _ _ => false)
      ≠ decodeClaimed [] ["a", "b"] 2 (fun _ => false) repSelAB
        (fun _ _ => false) := by
  decide

/-- Claim C4 (amended): the decoder emits the slots in order (each selected
identifier in its chosen shortcut representation, then whichever parenthesis
is active), emits a single space at exactly those slots where *no
parenthesis* is active (whether or not an identifier was written), and
finally replaces every occurrence of `" )"` with `")"` and trims trailing
whitespace. -/
theorem claim_C4 (short2text : List (String × String)) (ids : List String)
    (L : Nat) (shortSel : String → Bool)
    (repSel : Nat → String → String → Bool)
    (decSel : Nat → String → Bool) :
    extractSolution short2text ids L shortSel repSel decSel
      = decodeAmended short2text ids L shortSel repSel decSel := by
  unfold extractSolution decodeAmended
  have hfun : ∀ pos : Nat,
      slotIdParts short2text ids repSel pos ++
        (if (slotParens decSel pos).isEmpty then [" "]
         else slotParens decSel pos)
      = slotIdParts short2text ids repSel pos ++ slotParens decSel pos ++
        (if ¬ decSel pos "(" ∧ ¬ decSel pos ")" then [" "] else []) := by
    intro pos
    cases h1 : decSel pos "(" <;> cases h2 : decSel pos ")" <;>
      simp [slotParens, h1, h2]
  simp only [hfun]

/-! ### Inversion of `Schema.__init__` -/

theorem addAnnCols_names (cols : List Column) (n a : String) :
    (addAnnCols cols n a).map (fun c => c.name)
      = cols.map (fun c => c.name) := by
  induction cols with
  | nil => rfl
  | cons c rest ih =>
    by_cases h : c.name = n <;> simp [addAnnCols, h, ih]

theorem addAnn_names (tbs : List Table) (tn cn a : String) :
    (addAnn tbs tn cn a).map Table.name = tbs.map Table.name ∧
      allColumnNames (addAnn tbs tn cn a) = allColumnNames tbs := by
  induction tbs with
  | nil => exact ⟨rfl, rfl⟩
  | cons t rest ih =>
    by_cases h : t.name = tn
    · simp [addAnn, h, allColumnNames, addAnnCols_names]
    · simp only [addAnn, if_neg h, List.map_cons, allColumnNames,
        List.flatMap_cons]
      refine ⟨by rw [ih.1], ?_⟩
      have := ih.2
      simp only [allColumnNames] at this
      rw [this]

theorem pkeyFold (pks : List PrimaryKey) : ∀ (tbs : List Table)
    (acc : List PrimaryKey),
    (pks.foldl pkeyStep (tbs, acc)).2
        = acc ++ pks.filter (fun pk => pk.columns.length != 1) ∧
      allColumnNames (pks.foldl pkeyStep (tbs, acc)).1 = allColumnNames tbs ∧
      (pks.foldl pkeyStep (tbs, acc)).1.map Table.name = tbs.map Table.name := by
  induction pks with
  | nil => intro tbs acc; simp
  | cons pk rest ih =>
    intro tbs acc
    rcases hc : pk.columns with - | ⟨c, - | ⟨c2, cs⟩⟩
    · have hstep : pkeyStep (tbs, acc) pk = (tbs, acc ++ [pk]) := by
        simp [pkeyStep, hc]
      simp only [List.foldl_cons, hstep]
      obtain ⟨h1, h2, h3⟩ := ih tbs (acc ++ [pk])
      refine ⟨?_, h2, h3⟩
      rw [h1, List.filter_cons_of_pos (by simp [hc]), List.append_assoc]
      rfl
    · have hstep : pkeyStep (tbs, acc) pk
          = (addAnn tbs pk.table c "primary key", acc) := by
        simp [pkeyStep, hc]
      simp only [List.foldl_cons, hstep]
      obtain ⟨h1, h2, h3⟩ := ih (addAnn tbs pk.table c "primary key") acc
      obtain ⟨h4, h5⟩ := addAnn_names tbs pk.table c "primary key"
      refine ⟨?_, by rw [h2, h5], by rw [h3, h4]⟩
      rw [h1, List.filter_cons_of_neg (by simp [hc])]
    · have hstep : pkeyStep (tbs, acc) pk = (tbs, acc ++ [pk]) := by
        simp [pkeyStep, hc]
      simp only [List.foldl_cons, hstep]
      obtain ⟨h1, h2, h3⟩ := ih tbs (acc ++ [pk])
      refine ⟨?_, h2, h3⟩
      rw [h1, List.filter_cons_of_pos (by simp [hc]), List.append_assoc]
      rfl

theorem fkeyFold_none (fks : List ForeignKey) :
    fks.foldl fkeyStep none = none := by
  induction fks with
  | nil => rfl
  | cons fk rest ih => simpa [fkeyStep] using ih

theorem fkeyFold (fks : List ForeignKey) : ∀ (tbs : List Table)
    (acc : List ForeignKey) (q : List Table × List ForeignKey),
    fks.foldl fkeyStep (some (tbs, acc)) = some q →
    allColumnNames q.1 = allColumnNames tbs ∧
      q.1.map Table.name = tbs.map Table.name ∧
      q.2 = acc ++ fks.filter (fun fk => fk.from_columns.length != 1) := by
  induction fks with
  | nil =>
    intro tbs acc q h
    simp only [List.foldl_nil, Option.some_inj] at h
    subst h
    simp
  | cons fk rest ih =>
    intro tbs acc q h
    rcases hc : fk.from_columns with - | ⟨c, - | ⟨c2, cs⟩⟩
    · have hstep : fkeyStep (some (tbs, acc)) fk = some (tbs, acc ++ [fk]) := by
        simp [fkeyStep, hc]
      rw [List.foldl_cons, hstep] at h
      obtain ⟨h1, h2, h3⟩ := ih tbs (acc ++ [fk]) q h
      refine ⟨h1, h2, ?_⟩
      rw [h3, List.filter_cons_of_pos (by simp [hc]), List.append_assoc]
      rfl
    · rcases ht : fk.to_columns with - | ⟨tc, tcs⟩
      · have hstep : fkeyStep (some (tbs, acc)) fk = none := by
          simp [fkeyStep, hc, ht]
        rw [List.foldl_cons, hstep, fkeyFold_none] at h
        cases h
      · have hstep : fkeyStep (some (tbs, acc)) fk
            = some (addAnn tbs fk.from_table c
                ("foreign key (" ++ c ++ ") references "
                  ++ fk.to_table ++ "(" ++ tc ++ ")"), acc) := by
          simp [fkeyStep, hc, ht]
        rw [List.foldl_cons, hstep] at h
        obtain ⟨h1, h2, h3⟩ := ih _ acc q h
        obtain ⟨h4, h5⟩ := addAnn_names tbs fk.from_table c
          ("foreign key (" ++ c ++ ") references "
            ++ fk.to_table ++ "(" ++ tc ++ ")")
        refine ⟨by rw [h1, h5], by rw [h2, h4], ?_⟩
        rw [h3, List.filter_cons_of_neg (by simp [hc])]
    · have hstep : fkeyStep (some (tbs, acc)) fk = some (tbs, acc ++ [fk]) := by
        simp [fkeyStep, hc]
      rw [List.foldl_cons, hstep] at h
      obtain ⟨h1, h2, h3⟩ := ih tbs (acc ++ [fk]) q h
      refine ⟨h1, h2, ?_⟩
      rw [h3, List.filter_cons_of_pos (by simp [hc]), List.append_assoc]
      rfl

theorem schemaInit_inv (tables : List Table) (pkeys : List PrimaryKey)
    (fkeys : List ForeignKey) (s : Schema)
    (h : schemaInit tables pkeys fkeys = some s) :
    s.column_count = counterAddList [] (allColumnNames tables) ∧
      allColumnNames s.tables = allColumnNames tables ∧
      s.tables.map Table.name = tables.map Table.name ∧
      s.pkeys = pkeys.filter (fun pk => pk.columns.length != 1) ∧
      s.fkeys = fkeys.filter (fun fk => fk.from_columns.length != 1) := by
  unfold schemaInit at h
  rw [Option.map_eq_some'] at h
  obtain ⟨q, hq, hs⟩ := h
  obtain ⟨hp1, hp2, hp3⟩ := pkeyFold pkeys tables []
  obtain ⟨hf1, hf2, hf3⟩ := fkeyFold fkeys _ [] q hq
  subst hs
  refine ⟨rfl, ?_, ?_, ?_, ?_⟩
  · rw [hf1, hp2]
  · rw [hf2, hp3]
  · simpa using hp1
  · simpa using hf3

/-! ### Claim C6: full-name qualification -/

theorem get_column_names_of_cache (s : Schema)
    (hcc : ∀ n, counterGet s.column_count n
      = (allColumnNames s.tables).count n) :
    s.get_column_names = amendedColumnNames s := by
  unfold Schema.get_column_names amendedColumnNames
  have hfun : ∀ t : Table,
      t.columns.map (s.full_name t)
        = t.columns.map (fun c =>
            if 1 < (allColumnNames s.tables).count c.name
            then t.name ++ "." ++ c.name else c.name) := by
    intro t
    refine List.map_congr_left ?_
    intro c _
    simp [Schema.full_name, Schema.is_ambiguous, hcc]
  exact congrArg _ (funext hfun)

/-- Claim C6 counterexample: in a schema whose single table `t` has two
columns both named `c`, the bare name occurs in only one table, yet
`get_column_names` qualifies both occurrences (`_is_ambiguous` counts column
occurrences, not tables), contradicting the claimed "more than one table"
rule. -/
theorem claim_C6_counterexample :
    Schema.get_column_names schemaDupInTable = ["t.c", "t.c"] ∧
      claimColumnNames schemaDupInTable = ["c", "c"] ∧
      Schema.get_column_names schemaDupInTable
        ≠ claimColumnNames schemaDupInTable := by
  refine ⟨by decide, by decide, by decide⟩

/-- Claim C6 (amended): `get_column_names()` returns the qualified
identifier `T.C` for a column if and only if the bare name `C` occurs more
than once among all columns of the schema (counted with multiplicity, even
within a single table), and the bare name `C` otherwise. -/
theorem claim_C6 (tables : List Table) (pkeys : List PrimaryKey)
    (fkeys : List ForeignKey) (s : Schema)
    (h : schemaInit tables pkeys fkeys = some s) :
    s.get_column_names = amendedColumnNames s := by
  obtain ⟨h1, h2, -, -, -⟩ := schemaInit_inv tables pkeys fkeys s h
  refine get_column_names_of_cache s ?_
  intro n
  rw [h1, h2, counterGet_build]

/-- Witness for claim C6 at the two-table schema sharing column `c`. -/
theorem claim_C6_witness :
    Schema.get_column_names schemaDupCol = amendedColumnNames schemaDupCol :=
  claim_C6 tablesDupCol [] [] schemaDupCol (by decide)

/-! ### Claim C8: `split` -/

theorem mapM_singleSchema (tbs : List Table) :
    tbs.mapM (fun t => schemaInit [t] [] []) = some (tbs.map singleSchema) := by
  induction tbs with
  | nil => rfl
  | cons t rest ih =>
    rw [List.mapM_cons, ih]
    rfl

/-- Zero-column primary key used by the C8 counterexample. -/
def pkZero : PrimaryKey := { table := "t", columns := [] }

/-- An S1 schema constructed with a degenerate zero-column primary key. -/
def schemaZeroPk : Schema :=
  (schemaInit tablesS1 [pkZero] []).getD emptySchema

/-- Claim C8 counterexample: `split` raises although the schema contains no
*multi-column* key.  A degenerate zero-column primary key is not absorbed by
construction (only single-column keys are), so it remains in `self.pkeys`
and the assertion fires, even though every remaining key spans at most one
column and there is no foreign key at all. -/
theorem claim_C8_counterexample :
    Schema.split schemaZeroPk = none ∧
      schemaZeroPk.pkeys.all (fun pk => decide (pk.columns.length ≤ 1)) = true ∧
      schemaZeroPk.fkeys = [] := by
  refine ⟨by decide, by decide, by decide⟩

/-- Claim C8 (amended): `split()` raises precisely when a primary or foreign
key whose column list does not have exactly one column (multi-column, or
degenerate zero-column) was passed at construction — those are exactly the
keys that remain after construction; otherwise it returns one single-table
schema per table, in the original table order. -/
theorem claim_C8 (tables : List Table) (pkeys : List PrimaryKey)
    (fkeys : List ForeignKey) (s : Schema)
    (h : schemaInit tables pkeys fkeys = some s) :
    (s.split = none ↔
      (∃ pk ∈ pkeys, pk.columns.length ≠ 1) ∨
        (∃ fk ∈ fkeys, fk.from_columns.length ≠ 1)) ∧
    (¬ ((∃ pk ∈ pkeys, pk.columns.length ≠ 1) ∨
        (∃ fk ∈ fkeys, fk.from_columns.length ≠ 1)) →
      s.split = some (s.tables.map singleSchema)) := by
  obtain ⟨-, -, -, h4, h5⟩ := schemaInit_inv tables pkeys fkeys s h
  have hp : s.pkeys.isEmpty = true ↔ ∀ pk ∈ pkeys, pk.columns.length = 1 := by
    rw [h4, List.isEmpty_iff, List.filter_eq_nil_iff]
    simp
  have hf : s.fkeys.isEmpty = true ↔
      ∀ fk ∈ fkeys, fk.from_columns.length = 1 := by
    rw [h5, List.isEmpty_iff, List.filter_eq_nil_iff]
    simp
  constructor
  · unfold Schema.split
    by_cases hc : (s.pkeys.isEmpty && s.fkeys.isEmpty) = true
    · rw [if_pos hc, mapM_singleSchema]
      rw [Bool.and_eq_true] at hc
      constructor
      · intro habs
        exact absurd habs (Option.some_ne_none _)
      · rintro (⟨pk, hpk, hlen⟩ | ⟨fk, hfk, hlen⟩)
        · exact absurd (hp.1 hc.1 pk hpk) hlen
        · exact absurd (hf.1 hc.2 fk hfk) hlen
    · rw [if_neg hc]
      constructor
      · intro _
        by_contra hno
        push_neg at hno
        refine hc ?_
        rw [Bool.and_eq_true]
        exact ⟨hp.2 hno.1, hf.2 hno.2⟩
      · intro _
        rfl
  · intro hno
    push_neg at hno
    unfold Schema.split
    have hpe : s.pkeys.isEmpty = true := hp.2 hno.1
    have hfe : s.fkeys.isEmpty = true := hf.2 hno.2
    rw [if_pos (by rw [hpe, hfe]; rfl), mapM_singleSchema]

/-- Witness for claim C8: the key-free S1 schema splits into one
single-table schema. -/
theorem claim_C8_witness :
    Schema.split schemaS1 = some (schemaS1.tables.map singleSchema) :=
  (claim_C8 tablesS1 [] [] schemaS1 (by decide)).2 (by simp)

/-! ### Membership lemmas for the fact machinery -/

theorem mem_get_columns (s : Schema) (c : Column) :
    c ∈ s.get_columns ↔ ∃ t ∈ s.tables, c ∈ t.columns := by
  simp [Schema.get_columns]

theorem mem_membPairs (s : Schema) (p : String × String) :
    p ∈ membPairs s ↔
      ∃ t ∈ s.tables, ∃ c ∈ t.columns, p = (t.as_predicate, c.name) := by
  simp [membPairs, eq_comm]

theorem mem_crossPairs (s : Schema) (p : String × String) :
    p ∈ crossPairs s ↔
      ∃ t ∈ s.tables, ∃ c ∈ s.get_columns, p = (t.as_predicate, c.name) := by
  simp [crossPairs, eq_comm]

theorem colname_mem (s : Schema) (c : Column) (hc : c ∈ s.get_columns) :
    c.name ∈ allColumnNames s.tables := by
  rw [mem_get_columns] at hc
  obtain ⟨t, ht, hct⟩ := hc
  simp only [allColumnNames, List.mem_flatMap]
  exact ⟨t, ht, List.mem_map_of_mem _ hct⟩

theorem ann_mem (s : Schema) (c : Column) (a : String)
    (hc : c ∈ s.get_columns) (ha : a ∈ c.annotations) : a ∈ s.annsList := by
  rw [mem_get_columns] at hc
  obtain ⟨t, ht, hct⟩ := hc
  simp only [Schema.annsList, List.mem_dedup, List.mem_flatMap]
  exact ⟨t, ht, c, hct, ha⟩

theorem mem_trueAnnFacts (s : Schema) (p : String × String) :
    p ∈ trueAnnFacts s ↔
      ∃ c ∈ s.get_columns, ∃ a ∈ c.annotations, p = (c.name, a) := by
  unfold trueAnnFacts
  rw [List.mem_toFinset, List.mem_flatMap]
  constructor
  · rintro ⟨a, -, hp⟩
    rw [List.mem_filterMap] at hp
    obtain ⟨c, hc, hfc⟩ := hp
    by_cases hin : a ∈ c.annotations
    · rw [if_pos hin, Option.some_inj] at hfc
      exact ⟨c, hc, a, hin, hfc.symm⟩
    · rw [if_neg hin] at hfc
      cases hfc
  · rintro ⟨c, hc, a, hin, hp⟩
    refine ⟨a, ann_mem s c a hc hin, ?_⟩
    rw [List.mem_filterMap]
    exact ⟨c, hc, by rw [if_pos hin, hp]⟩

theorem mem_falseAnnFacts (s : Schema) (p : String × String) :
    p ∈ falseAnnFacts s ↔
      ∃ a ∈ s.annsList, ∃ c ∈ s.get_columns,
        a ∉ c.annotations ∧ p = (c.name, a) := by
  unfold falseAnnFacts
  rw [List.mem_toFinset, List.mem_flatMap]
  constructor
  · rintro ⟨a, ha, hp⟩
    rw [List.mem_filterMap] at hp
    obtain ⟨c, hc, hfc⟩ := hp
    by_cases hin : a ∈ c.annotations
    · rw [if_pos hin] at hfc
      cases hfc
    · rw [if_neg hin, Option.some_inj] at hfc
      exact ⟨a, ha, c, hc, hin, hfc.symm⟩
  · rintro ⟨a, ha, c, hc, hin, hp⟩
    refine ⟨a, ha, ?_⟩
    rw [List.mem_filterMap]
    exact ⟨c, hc, by rw [if_neg hin, hp]⟩

/-! ### The ownership removal loop -/

theorem removeFold (pairs : List (String × String)) :
    ∀ (tf ff : Finset (String × String)), pairs.Nodup →
      (∀ p ∈ pairs, p ∈ ff) →
      pairs.foldl removeStep (some (tf, ff))
        = some (tf ∪ pairs.toFinset, ff \ pairs.toFinset) := by
  induction pairs with
  | nil => intro tf ff _ _; simp
  | cons p rest ih =>
    intro tf ff hnd hsub
    have hp : p ∈ ff := hsub p (List.mem_cons_self _ _)
    rw [List.foldl_cons]
    have hstep : removeStep (some (tf, ff)) p
        = some (insert p tf, ff.erase p) := by
      simp [removeStep, hp]
    rw [hstep]
    obtain ⟨hpr, hrest⟩ := List.nodup_cons.1 hnd
    have hsub2 : ∀ q ∈ rest, q ∈ ff.erase p := by
      intro q hq
      refine Finset.mem_erase.2 ⟨?_, hsub q (List.mem_cons_of_mem _ hq)⟩
      intro he
      exact hpr (he ▸ hq)
    rw [ih (insert p tf) (ff.erase p) hrest hsub2]
    have h1 : insert p tf ∪ rest.toFinset = tf ∪ (p :: rest).toFinset := by
      ext x
      simp only [Finset.mem_union, Finset.mem_insert, List.toFinset_cons]
      tauto
    have h2 : (ff.erase p) \ rest.toFinset = ff \ (p :: rest).toFinset := by
      ext x
      simp only [Finset.mem_sdiff, Finset.mem_erase, List.toFinset_cons,
        Finset.mem_insert]
      tauto
    rw [h1, h2]

theorem membPairs_snd (s : Schema) :
    (membPairs s).map Prod.snd = allColumnNames s.tables := by
  simp [membPairs, allColumnNames, List.map_flatMap, List.map_map]
  rfl

theorem membPairs_nodup (s : Schema)
    (hnd : (allColumnNames s.tables).Nodup) : (membPairs s).Nodup := by
  have : ((membPairs s).map Prod.snd).Nodup := by
    rw [membPairs_snd]; exact hnd
  exact this.of_map

theorem membPairs_subset_cross (s : Schema) (p : String × String)
    (hp : p ∈ membPairs s) : p ∈ crossPairs s := by
  rw [mem_membPairs] at hp
  obtain ⟨t, ht, c, hc, hpe⟩ := hp
  rw [mem_crossPairs]
  exact ⟨t, ht, c, (mem_get_columns s c).2 ⟨t, ht, hc⟩, hpe⟩

theorem get_facts_eq (s : Schema) (hnd : (allColumnNames s.tables).Nodup) :
    s.get_facts = some
      ((membPairs s).toFinset ∪ trueAnnFacts s,
        ((crossPairs s).toFinset \ (membPairs s).toFinset) ∪ falseAnnFacts s) := by
  unfold Schema.get_facts
  rw [removeFold (membPairs s) ∅ (crossPairs s).toFinset
    (membPairs_nodup s hnd)
    (fun p hp => List.mem_toFinset.2 (membPairs_subset_cross s p hp))]
  simp

/-! ### Injectivity helpers under the uniqueness preconditions -/

theorem pred_inj (t1 t2 : Table)
    (h : t1.as_predicate = t2.as_predicate) : t1.name = t2.name := by
  unfold Table.as_predicate at h
  have hd := congrArg String.data h
  simp only [String.data_append] at hd
  exact String.ext (List.append_cancel_left hd)

/-- Pairs (owning table, column), used to transport global column-name
uniqueness to injectivity. -/
def tableColPairs (s : Schema) : List (Table × Column) :=
  s.tables.flatMap (fun t => t.columns.map (fun c => (t, c)))

theorem mem_tableColPairs (s : Schema) (t : Table) (c : Column) :
    (t, c) ∈ tableColPairs s ↔ t ∈ s.tables ∧ c ∈ t.columns := by
  simp only [tableColPairs, List.mem_flatMap, List.mem_map]
  constructor
  · rintro ⟨t2, ht2, c2, hc2, he⟩
    obtain ⟨he1, he2⟩ := Prod.mk.injEq .. ▸ he
    cases he
    exact ⟨ht2, hc2⟩
  · rintro ⟨ht, hc⟩
    exact ⟨t, ht, c, hc, rfl⟩

theorem tableColPairs_names (s : Schema) :
    (tableColPairs s).map (fun tc => tc.2.name) = allColumnNames s.tables := by
  simp [tableColPairs, allColumnNames, List.map_flatMap, List.map_map]
  rfl

theorem col_inj (s : Schema) (hnd : (allColumnNames s.tables).Nodup)
    (t1 : Table) (ht1 : t1 ∈ s.tables) (c1 : Column) (hc1 : c1 ∈ t1.columns)
    (t2 : Table) (ht2 : t2 ∈ s.tables) (c2 : Column) (hc2 : c2 ∈ t2.columns)
    (hn : c1.name = c2.name) : t1 = t2 ∧ c1 = c2 := by
  have hmap : ((tableColPairs s).map (fun tc => tc.2.name)).Nodup := by
    rw [tableColPairs_names]; exact hnd
  have h1 : (t1, c1) ∈ tableColPairs s :=
    (mem_tableColPairs s t1 c1).2 ⟨ht1, hc1⟩
  have h2 : (t2, c2) ∈ tableColPairs s :=
    (mem_tableColPairs s t2 c2).2 ⟨ht2, hc2⟩
  have := List.inj_on_of_nodup_map hmap h1 h2 hn
  exact ⟨congrArg Prod.fst this, congrArg Prod.snd this⟩

theorem table_inj (s : Schema) (htn : (s.tables.map Table.name).Nodup)
    (t1 : Table) (ht1 : t1 ∈ s.tables) (t2 : Table) (ht2 : t2 ∈ s.tables)
    (hn : t1.name = t2.name) : t1 = t2 :=
  List.inj_on_of_nodup_map htn ht1 ht2 hn

/-! ### Claim C2: the fact partition -/

/-- Claim C2 counterexample: with two tables that share the bare column name
`c` — the column of `t1` carries the annotation `x`, the column of `t2` does
not — `get_facts` puts the pair `(c, x)` into *both* the true-fact list (for
the `t1` column) and the false-fact list (for the `t2` column), so the same
unordered identifier pair appears on both sides. -/
theorem claim_C2_counterexample :
    (Schema.get_facts schemaDupCol).map
        (fun r => decide (("c", "x") ∈ r.1) && decide (("c", "x") ∈ r.2))
      = some true := by
  decide

/-- Claim C2 (amended): the partition property holds for every schema whose
column names are pairwise distinct, whose table names are pairwise distinct,
and whose three identifier classes (table predicates, column names,
annotations) are pairwise disjoint as strings.  Then `get_facts` succeeds;
a table-column pair is a true fact exactly for the owning table and a false
fact exactly for every other table; a column-annotation pair is a true fact
exactly when the annotation is declared on the column and a false fact
otherwise; and no unordered identifier pair appears in both lists. -/
theorem claim_C2 (s : Schema)
    (hnd : (allColumnNames s.tables).Nodup)
    (htn : (s.tables.map Table.name).Nodup)
    (hpc : ∀ t ∈ s.tables, t.as_predicate ∉ allColumnNames s.tables)
    (hpa : ∀ t ∈ s.tables, t.as_predicate ∉ s.annsList)
    (hca : ∀ n ∈ allColumnNames s.tables, n ∉ s.annsList) :
    ∃ tf ff, s.get_facts = some (tf, ff) ∧
      (∀ t ∈ s.tables, ∀ t2 ∈ s.tables, ∀ c ∈ t2.columns,
        ((t.as_predicate, c.name) ∈ tf ↔ t = t2) ∧
        ((t.as_predicate, c.name) ∈ ff ↔ t ≠ t2)) ∧
      (∀ t ∈ s.tables, ∀ c ∈ t.columns, ∀ a ∈ s.annsList,
        ((c.name, a) ∈ tf ↔ a ∈ c.annotations) ∧
        ((c.name, a) ∈ ff ↔ a ∉ c.annotations)) ∧
      (∀ p ∈ tf, ∀ q ∈ ff, ¬ samePair p q) := by
  refine ⟨_, _, get_facts_eq s hnd, ?_, ?_, ?_⟩
  · intro t ht t2 ht2 c hc
    constructor
    · constructor
      · intro h
        rcases Finset.mem_union.1 h with h | h
        · rw [List.mem_toFinset, mem_membPairs] at h
          obtain ⟨t3, ht3, c3, hc3, heq⟩ := h
          obtain ⟨hp1, hp2⟩ := Prod.mk.injEq .. ▸ heq
          have h13 : t = t3 := table_inj s htn t ht t3 ht3 (pred_inj t t3 hp1)
          have h32 := col_inj s hnd t3 ht3 c3 hc3 t2 ht2 c hc hp2.symm
          rw [h13, h32.1]
        · rw [mem_trueAnnFacts] at h
          obtain ⟨c3, hc3, a, -, heq⟩ := h
          obtain ⟨hp1, -⟩ := Prod.mk.injEq .. ▸ heq
          exact absurd (hp1 ▸ colname_mem s c3 hc3) (hpc t ht)
      · intro he
        subst he
        exact Finset.mem_union.2 (Or.inl (List.mem_toFinset.2
          ((mem_membPairs s _).2 ⟨t, ht, c, hc, rfl⟩)))
    · constructor
      · intro h
        rcases Finset.mem_union.1 h with h | h
        · obtain ⟨-, hout⟩ := Finset.mem_sdiff.1 h
          intro he
          subst he
          exact hout (List.mem_toFinset.2
            ((mem_membPairs s _).2 ⟨t, ht, c, hc, rfl⟩))
        · rw [mem_falseAnnFacts] at h
          obtain ⟨a, -, c3, hc3, -, heq⟩ := h
          obtain ⟨hp1, -⟩ := Prod.mk.injEq .. ▸ heq
          exact absurd (hp1 ▸ colname_mem s c3 hc3) (hpc t ht)
      · intro hne
        refine Finset.mem_union.2 (Or.inl (Finset.mem_sdiff.2 ⟨?_, ?_⟩))
        · exact List.mem_toFinset.2 ((mem_crossPairs s _).2
            ⟨t, ht, c, (mem_get_columns s c).2 ⟨t2, ht2, hc⟩, rfl⟩)
        · intro habs
          rw [List.mem_toFinset, mem_membPairs] at habs
          obtain ⟨t3, ht3, c3, hc3, heq⟩ := habs
          obtain ⟨hp1, hp2⟩ := Prod.mk.injEq .. ▸ heq
          have h13 : t = t3 := table_inj s htn t ht t3 ht3 (pred_inj t t3 hp1)
          have h32 := col_inj s hnd t3 ht3 c3 hc3 t2 ht2 c hc hp2.symm
          exact hne (h13.trans h32.1)
  · intro t ht c hc a ha
    have hcg : c ∈ s.get_columns := (mem_get_columns s c).2 ⟨t, ht, hc⟩
    constructor
    · constructor
      · intro h
        rcases Finset.mem_union.1 h with h | h
        · rw [List.mem_toFinset, mem_membPairs] at h
          obtain ⟨t3, ht3, c3, hc3, heq⟩ := h
          obtain ⟨hp1, -⟩ := Prod.mk.injEq .. ▸ heq
          exact absurd (hp1.symm ▸ colname_mem s c hcg) (hpc t3 ht3)
        · rw [mem_trueAnnFacts] at h
          obtain ⟨c3, hc3, a3, ha3, heq⟩ := h
          obtain ⟨hp1, hp2⟩ := Prod.mk.injEq .. ▸ heq
          obtain ⟨t3, ht3, hc3t⟩ := (mem_get_columns s c3).1 hc3
          have := col_inj s hnd t ht c hc t3 ht3 c3 hc3t hp1
          rw [hp2, this.2]
          exact ha3
      · intro hin
        exact Finset.mem_union.2 (Or.inr ((mem_trueAnnFacts s _).2
          ⟨c, hcg, a, hin, rfl⟩))
    · constructor
      · intro h
        rcases Finset.mem_union.1 h with h | h
        · obtain ⟨hin, -⟩ := Finset.mem_sdiff.1 h
          rw [List.mem_toFinset, mem_crossPairs] at hin
          obtain ⟨t3, ht3, c3, -, heq⟩ := hin
          obtain ⟨hp1, -⟩ := Prod.mk.injEq .. ▸ heq
          exact absurd (hp1.symm ▸ colname_mem s c hcg) (hpc t3 ht3)
        · rw [mem_falseAnnFacts] at h
          obtain ⟨a3, -, c3, hc3, hnotin, heq⟩ := h
          obtain ⟨hp1, hp2⟩ := Prod.mk.injEq .. ▸ heq
          obtain ⟨t3, ht3, hc3t⟩ := (mem_get_columns s c3).1 hc3
          have := col_inj s hnd t ht c hc t3 ht3 c3 hc3t hp1
          rw [hp2, this.2]
          exact hnotin
      · intro hout
        exact Finset.mem_union.2 (Or.inr ((mem_falseAnnFacts s _).2
          ⟨a, ha, c, hcg, hout, rfl⟩))
  · intro p hp q hq hsame
    rcases Finset.mem_union.1 hp with hp | hp
    · rw [List.mem_toFinset, mem_membPairs] at hp
      obtain ⟨t1, ht1, c1, hc1, hpe⟩ := hp
      subst hpe
      rcases Finset.mem_union.1 hq with hq | hq
      · obtain ⟨hin, hout⟩ := Finset.mem_sdiff.1 hq
        rw [List.mem_toFinset, mem_crossPairs] at hin
        obtain ⟨t2, ht2, c2, hc2, hqe⟩ := hin
        subst hqe
        rcases hsame with ⟨h1, h2⟩ | ⟨h1, h2⟩
        · simp only at h1 h2
          refine hout (List.mem_toFinset.2 ((mem_membPairs s _).2
            ⟨t1, ht1, c1, hc1, ?_⟩))
          rw [h1, h2]
        · simp only at h1 h2
          exact absurd (h1 ▸ colname_mem s c2 hc2) (hpc t1 ht1)
      · rw [mem_falseAnnFacts] at hq
        obtain ⟨a2, ha2, c2, hc2, -, hqe⟩ := hq
        subst hqe
        rcases hsame with ⟨h1, -⟩ | ⟨h1, -⟩
        · simp only at h1
          exact absurd (h1 ▸ colname_mem s c2 hc2) (hpc t1 ht1)
        · simp only at h1
          exact absurd (h1 ▸ ha2) (hpa t1 ht1)
    · rw [mem_trueAnnFacts] at hp
      obtain ⟨c1, hc1, a1, ha1, hpe⟩ := hp
      subst hpe
      rcases Finset.mem_union.1 hq with hq | hq
      · obtain ⟨hin, -⟩ := Finset.mem_sdiff.1 hq
        rw [List.mem_toFinset, mem_crossPairs] at hin
        obtain ⟨t2, ht2, c2, hc2, hqe⟩ := hin
        subst hqe
        rcases hsame with ⟨h1, -⟩ | ⟨-, h2⟩
        · simp only at h1
          exact absurd (h1.symm ▸ colname_mem s c1 hc1) (hpc t2 ht2)
        · simp only at h2
          exact absurd (h2 ▸ ann_mem s c1 a1 hc1 ha1) (hpa t2 ht2)
      · rw [mem_falseAnnFacts] at hq
        obtain ⟨a2, ha2, c2, hc2, hnotin, hqe⟩ := hq
        subst hqe
        rcases hsame with ⟨h1, h2⟩ | ⟨h1, -⟩
        · simp only at h1 h2
          obtain ⟨t1, ht1, hc1t⟩ := (mem_get_columns s c1).1 hc1
          obtain ⟨t2, ht2, hc2t⟩ := (mem_get_columns s c2).1 hc2
          have hcc := col_inj s hnd t1 ht1 c1 hc1t t2 ht2 c2 hc2t h1
          refine hnotin ?_
          rw [← h2, ← hcc.2]
          exact ha1
        · simp only at h1
          exact absurd (h1 ▸ ha2) (hca c1.name (colname_mem s c1 hc1))

/-- Witness for claim C2: the S1 schema satisfies the uniqueness
preconditions, so `get_facts` succeeds. -/
theorem claim_C2_witness : (Schema.get_facts schemaS1).isSome = true := by
  obtain ⟨tf, ff, h, -, -, -⟩ := claim_C2 schemaS1 (by decide) (by decide)
    (by decide) (by decide) (by decide)
  rw [h]
  rfl

/-! ### Claim C10: pruning lookups -/

theorem mem_get_column_names (s : Schema) (n : String) :
    n ∈ s.get_column_names ↔
      ∃ t ∈ s.tables, ∃ c ∈ t.columns, s.full_name t c = n := by
  simp [Schema.get_column_names]

/-- Claim C10: the `_add_pruning` context lookups are keyed by
`get_column_names()` while the context variables are keyed by the
identifiers from the fact set.  When no bare column name occurs more than
once in the schema, every looked-up key is an identifier, so the lookups
succeed; and there is a schema with a duplicated column name (two tables
sharing column `c`) on which the lookup set contains the qualified name
`t1.c`, which is not an identifier, so model construction fails with a
`KeyError`. -/
theorem claim_C10 :
    (∀ (tables : List Table) (pkeys : List PrimaryKey)
      (fkeys : List ForeignKey) (s : Schema),
      schemaInit tables pkeys fkeys = some s →
      (allColumnNames tables).Nodup →
      pruningColumnKeysOkB s = true) ∧
    pruningColumnKeysOkB schemaDupCol = false := by
  constructor
  · intro tables pkeys fkeys s h hnod
    obtain ⟨h1, h2, -, -, -⟩ := schemaInit_inv tables pkeys fkeys s h
    have hnod2 : (allColumnNames s.tables).Nodup := by rw [h2]; exact hnod
    have hfacts := get_facts_eq s hnod2
    have hid : s.get_identifiers = some
        ((((membPairs s).toFinset ∪ trueAnnFacts s) ∪
            (((crossPairs s).toFinset \ (membPairs s).toFinset) ∪
              falseAnnFacts s)).image Prod.fst ∪
          (((membPairs s).toFinset ∪ trueAnnFacts s) ∪
            (((crossPairs s).toFinset \ (membPairs s).toFinset) ∪
              falseAnnFacts s)).image Prod.snd) := by
      unfold Schema.get_identifiers
      rw [hfacts]
      rfl
    simp only [pruningColumnKeysOkB, hid]
    rw [List.all_eq_true]
    intro n hn
    rw [decide_eq_true_eq]
    rw [mem_get_column_names] at hn
    obtain ⟨t, ht, c, hc, hname⟩ := hn
    have hcount : counterGet s.column_count c.name ≤ 1 := by
      rw [h1, counterGet_build]
      exact List.nodup_iff_count_le_one.1 hnod c.name
    have hfull : s.full_name t c = c.name := by
      unfold Schema.full_name Schema.is_ambiguous
      have : ¬ (1 < counterGet s.column_count c.name) := by omega
      simp [this]
    have hpair : (t.as_predicate, c.name) ∈
        (membPairs s).toFinset ∪ trueAnnFacts s :=
      Finset.mem_union.2 (Or.inl (List.mem_toFinset.2
        ((mem_membPairs s _).2 ⟨t, ht, c, hc, rfl⟩)))
    rw [← hname, hfull]
    refine Finset.mem_union.2 (Or.inr (Finset.mem_image.2 ?_))
    exact ⟨(t.as_predicate, c.name), Finset.mem_union.2 (Or.inl hpair), rfl⟩
  · decide

/-- Witness for claim C10: on the S1 schema all pruning lookups succeed. -/
theorem claim_C10_witness : pruningColumnKeysOkB schemaS1 = true :=
  claim_C10.1 tablesS1 [] [] schemaS1 (by decide) (by decide)

/-! ### Claim C3: parenthesis balance of every constrained assignment -/

theorem parenDepthRun_append (a b : List String) :
    ∀ d : Nat, parenDepthRun (a ++ b) d
      = (parenDepthRun a d).bind (parenDepthRun b) := by
  induction a with
  | nil => intro d; simp [parenDepthRun]
  | cons t rest ih =>
    intro d
    by_cases h1 : t = "("
    · simp only [List.cons_append, parenDepthRun, if_pos h1]
      exact ih (d + 1)
    · by_cases h2 : t = ")"
      · simp only [List.cons_append, parenDepthRun, if_neg h1, if_pos h2]
        match d with
        | 0 => rfl
        | e + 1 => exact ih e
      · simp only [List.cons_append, parenDepthRun, if_neg h1, if_neg h2]
        exact ih d

theorem parenTokens_succ (x : Nat → String → Nat) (k : Nat) :
    parenTokens x (k + 1) = parenTokens x k ++
      ((if 0 < x k "(" then ["("] else [])
        ++ (if 0 < x k ")" then [")"] else [])) := by
  unfold parenTokens
  rw [List.range_succ, List.flatMap_append]
  simp

theorem paren_invariant (L : Nat) (x : Nat → String → Nat)
    (hbin : binaryParen L x)
    (hpre : ∀ pos < L, closeSum x (pos + 1) ≤ openSum x (pos + 1)) :
    ∀ k ≤ L, closeSum x k ≤ openSum x k ∧
      parenDepthRun (parenTokens x k) 0 = some (openSum x k - closeSum x k) ∧
      (parenTokens x k).count "(" = openSum x k ∧
      (parenTokens x k).count ")" = closeSum x k := by
  intro k
  induction k with
  | zero =>
    intro _
    simp [parenTokens, openSum, closeSum, parenDepthRun]
  | succ n ih =>
    intro hk
    obtain ⟨hle, hrun, hco, hcc⟩ := ih (Nat.le_of_succ_le hk)
    have hnL : n < L := Nat.lt_of_succ_le hk
    obtain ⟨hbo, hbc⟩ := hbin n hnL
    have hpren := hpre n hnL
    have hOs : openSum x (n + 1) = openSum x n + x n "(" :=
      Finset.sum_range_succ _ n
    have hCs : closeSum x (n + 1) = closeSum x n + x n ")" :=
      Finset.sum_range_succ _ n
    rw [parenTokens_succ, parenDepthRun_append, hrun]
    simp only [List.count_append, hOs, hCs]
    by_cases ho : 0 < x n "("
    · have ho1 : x n "(" = 1 := by omega
      by_cases hc : 0 < x n ")"
      · have hc1 : x n ")" = 1 := by omega
        simp only [if_pos ho, if_pos hc]
        refine ⟨by omega, ?_, by simp [hco, ho1], by simp [hcc, hc1]⟩
        simp only [List.singleton_append, parenDepthRun, Option.bind_some,
          if_pos rfl, reduceIte]
        rw [ho1, hc1]
        refine congrArg some ?_
        omega
      · have hc0 : x n ")" = 0 := by omega
        simp only [if_pos ho, if_neg hc]
        refine ⟨by omega, ?_, by simp [hco, ho1], by simp [hcc, hc0]⟩
        simp only [List.append_nil, parenDepthRun, Option.bind_some,
          if_pos rfl]
        rw [ho1, hc0]
        refine congrArg some ?_
        omega
    · have ho0 : x n "(" = 0 := by omega
      by_cases hc : 0 < x n ")"
      · have hc1 : x n ")" = 1 := by omega
        have hge : closeSum x n + 1 ≤ openSum x n := by omega
        simp only [if_neg ho, if_pos hc]
        refine ⟨by omega, ?_, by simp [hco, ho0], by simp [hcc, hc1]⟩
        obtain ⟨e, he⟩ : ∃ e, openSum x n - closeSum x n = e + 1 :=
          ⟨openSum x n - closeSum x n - 1, by omega⟩
        rw [he]
        simp only [List.nil_append, parenDepthRun, Option.bind_some, reduceIte]
        rw [ho0, hc1]
        refine congrArg some ?_
        omega
      · have hc0 : x n ")" = 0 := by omega
        simp only [if_neg ho, if_neg hc]
        refine ⟨by omega, ?_, by simp [hco, ho0], by simp [hcc, hc0]⟩
        simp only [List.append_nil, parenDepthRun, Option.bind_some]
        rw [ho0, hc0]
        simp

/-- Claim C3: every binary assignment satisfying the parenthesis constraints
added by the ILP builder (total balance, and per-prefix dominance of
openings over closings) decodes to a parenthesis-token sequence that is
balanced: the depth scan never goes negative and ends at zero, and the
emitted numbers of `(` and `)` tokens are equal. -/
theorem claim_C3 (L : Nat) (x : Nat → String → Nat)
    (hbin : binaryParen L x) (hcon : parenConstraints L x) :
    balancedParens (parenTokens x L) ∧
      (parenTokens x L).count "(" = (parenTokens x L).count ")" := by
  obtain ⟨hbal, hpre⟩ := hcon
  obtain ⟨hle, hrun, hco, hcc⟩ := paren_invariant L x hbin hpre L le_rfl
  constructor
  · unfold balancedParens
    rw [hrun, hbal]
    simp
  · rw [hco, hcc, hbal]

/-- Concrete assignment for the C3 witness: `(` at slot 0, `)` at slot 1. -/
def xPair : Nat → String → Nat := fun p t =>
  if p = 0 ∧ t = "(" then 1 else if p = 1 ∧ t = ")" then 1 else 0

/-- Witness for claim C3 at a concrete assignment: `(` at slot 0 and `)`
at slot 1 satisfies the constraints and decodes to a balanced sequence. -/
theorem claim_C3_witness :
    balancedParens (parenTokens xPair 2) ∧
      (parenTokens xPair 2).count "(" = (parenTokens xPair 2).count ")" := by
  refine claim_C3 2 xPair ?_ ?_
  · intro p hp
    constructor <;> (unfold xPair; split_ifs <;> omega)
  · constructor
    · decide
    · decide

/-! ### Counter lemmas for `Schema.prefixes` -/

theorem counterAddList_keys_nodup (l : List String) :
    ∀ cnt : List (String × Nat), ((cnt.map (fun e => e.1)).Nodup) →
      ((counterAddList cnt l).map (fun e => e.1)).Nodup := by
  induction l with
  | nil => intro cnt h; exact h
  | cons n rest ih =>
    intro cnt h
    exact ih (counterUpdate cnt n) (counterUpdate_keys_nodup cnt n h)

theorem counter_find (cnt : List (String × Nat))
    (hnd : (cnt.map (fun e => e.1)).Nodup) (e : String × Nat) (he : e ∈ cnt) :
    cnt.find? (fun x => x.1 = e.1) = some e := by
  induction cnt with
  | nil => cases he
  | cons f rest ih =>
    simp only [List.map_cons, List.nodup_cons] at hnd
    rcases List.mem_cons.1 he with h | h
    · subst h
      simp [List.find?]
    · have hne : ¬ (f.1 = e.1) := by
        intro hfe
        exact hnd.1 (hfe ▸ List.mem_map_of_mem (fun e => e.1) h)
      have hd : (decide (f.1 = e.1)) = false := decide_eq_false hne
      simp only [List.find?, hd]
      exact ih hnd.2 h

theorem counter_entry_val (l : List String) (e : String × Nat)
    (he : e ∈ counterAddList [] l) :
    counterGet (counterAddList [] l) e.1 = e.2 := by
  have hnd : ((counterAddList [] l).map (fun e => e.1)).Nodup :=
    counterAddList_keys_nodup l [] (by simp)
  unfold counterGet
  rw [counter_find (counterAddList [] l) hnd e he]
  rfl

theorem counter_vals_pos (l : List String) :
    ∀ (cnt : List (String × Nat)), (∀ f ∈ cnt, 0 < f.2) →
      ∀ e ∈ counterAddList cnt l, 0 < e.2 := by
  induction l with
  | nil => intro cnt h e he; exact h e he
  | cons n rest ih =>
    intro cnt h e he
    refine ih (counterUpdate cnt n) ?_ e he
    clear he ih
    induction cnt with
    | nil =>
      intro f hf
      simp only [counterUpdate, List.mem_singleton] at hf
      simp [hf]
    | cons g rest2 ih2 =>
      intro f hf
      by_cases hg : g.1 = n
      · rcases g with ⟨gk, gv⟩
        simp only [counterUpdate, if_pos hg, List.mem_cons] at hf
        rcases hf with hf | hf
        · simp [hf]
        · exact h f (List.mem_cons_of_mem _ hf)
      · rcases g with ⟨gk, gv⟩
        simp only [counterUpdate, if_neg hg, List.mem_cons] at hf
        rcases hf with hf | hf
        · exact h f (hf ▸ List.mem_cons_self _ _)
        · refine ih2 (fun f2 hf2 => h f2 (List.mem_cons_of_mem _ hf2)) f hf

theorem counter_mem_keys (l : List String) (n : String) :
    n ∈ (counterAddList [] l).map (fun e => e.1) ↔ 0 < l.count n := by
  constructor
  · intro h
    obtain ⟨e, he, hen⟩ := List.mem_map.1 h
    have hv : 0 < e.2 := counter_vals_pos l [] (by simp) e he
    have := counter_entry_val l e he
    rw [hen] at this
    rw [← counterGet_build l n, this]
    exact hv
  · intro h
    rw [← counterGet_build l n] at h
    unfold counterGet at h
    rcases hf : (counterAddList [] l).find? (fun e => e.1 = n) with - | e
    · rw [hf] at h
      simp at h
    · have hmem := List.mem_of_find?_eq_some hf
      have hpred := List.find?_some hf
      rw [decide_eq_true_eq] at hpred
      exact hpred ▸ List.mem_map_of_mem (fun e => e.1) hmem

/-! ### The prefix counter counts prefix occurrences -/

theorem count_flatMap {α : Type} (f : α → List String) (p : String) :
    ∀ l : List α, (l.flatMap f).count p = (l.map (fun a => (f a).count p)).sum := by
  intro l
  induction l with
  | nil => rfl
  | cons a rest ih =>
    simp only [List.flatMap_cons, List.count_append, List.map_cons,
      List.sum_cons, ih]

theorem sum_ite_countP {α : Type} (pred : α → Bool) :
    ∀ l : List α,
      (l.map (fun a => if pred a = true then 1 else 0)).sum = l.countP pred := by
  intro l
  induction l with
  | nil => rfl
  | cons a rest ih =>
    simp only [List.map_cons, List.sum_cons, List.countP_cons, ih]
    split_ifs <;> omega

theorem countP_unique {α : Type} [DecidableEq α] (pred : α → Bool) (c : α) :
    ∀ l : List α, l.Nodup → (∀ a ∈ l, pred a = true → a = c) →
      l.countP pred = if c ∈ l ∧ pred c = true then 1 else 0 := by
  intro l
  induction l with
  | nil => intro _ _; simp
  | cons a rest ih =>
    intro hnd huniq
    obtain ⟨hna, hndr⟩ := List.nodup_cons.1 hnd
    have hih := ih hndr (fun b hb hpb => huniq b (List.mem_cons_of_mem _ hb) hpb)
    rw [List.countP_cons, hih]
    by_cases hpa : pred a = true
    · have hac : a = c := huniq a (List.mem_cons_self _ _) hpa
      subst hac
      have hnc : ¬ (a ∈ rest ∧ pred a = true) := fun hx => hna hx.1
      have hyes : a ∈ a :: rest ∧ pred a = true :=
        ⟨List.mem_cons_self _ _, hpa⟩
      rw [if_neg hnc, if_pos hyes]
      simp [hpa]
    · have h1 : (c ∈ a :: rest ∧ pred c = true) ↔ (c ∈ rest ∧ pred c = true) := by
        constructor
        · rintro ⟨hm, hp⟩
          rcases List.mem_cons.1 hm with h | h
          · exact absurd (h ▸ hp) hpa
          · exact ⟨h, hp⟩
        · rintro ⟨hm, hp⟩
          exact ⟨List.mem_cons_of_mem _ hm, hp⟩
      have h2 : (if c ∈ a :: rest ∧ pred c = true then 1 else 0)
          = (if c ∈ rest ∧ pred c = true then 1 else 0) := if_congr h1 rfl rfl
      rw [h2]
      simp [hpa]

theorem isPrefixOf_true_iff (l1 l2 : List Char) :
    l1.isPrefixOf l2 = true ↔ l1 <+: l2 :=
  List.isPrefixOf_iff_prefix

theorem take_pre_self (n : Nat) (l : List Char) : l.take n <+: l :=
  List.take_prefix n l

theorem strTake_eq_iff (idf p : String) (l : Nat) :
    strTake idf l = p ↔ idf.data.take l = p.data := by
  constructor
  · intro h
    exact congrArg String.data h
  · intro h
    exact String.ext h

theorem mem_prefixListOf (idf q : String) (hq : q ∈ prefixListOf idf) :
    2 ≤ q.length ∧ q.data.isPrefixOf idf.data = true := by
  unfold prefixListOf at hq
  obtain ⟨l, hl, hlq⟩ := List.mem_map.1 hq
  rw [List.mem_range'_1] at hl
  have hlen : l ≤ idf.length := by omega
  have hdata : q.data = idf.data.take l := ((strTake_eq_iff idf q l).1 hlq).symm
  have hql : q.length = l := by
    have h1 : q.data.length = (idf.data.take l).length := by rw [hdata]
    have hi : idf.data.length = idf.length := rfl
    have hl2 : l ≤ idf.data.length := by omega
    rw [List.length_take, Nat.min_eq_left hl2] at h1
    exact h1
  constructor
  · omega
  · rw [isPrefixOf_true_iff, hdata]
    exact take_pre_self l idf.data

theorem prefixListOf_count (idf p : String) (hp : 2 ≤ p.length) :
    (prefixListOf idf).count p
      = if p.data.isPrefixOf idf.data = true then 1 else 0 := by
  unfold prefixListOf
  rw [List.count_eq_countP, List.countP_map]
  have hnd := List.nodup_range' 2 (idf.length - 1) 1 (by norm_num)
  have huniq : ∀ l ∈ List.range' 2 (idf.length - 1),
      ((fun a => a == p) ∘ (fun l => strTake idf l)) l = true →
        l = p.length := by
    intro l hl hbeq
    simp only [Function.comp, beq_iff_eq] at hbeq
    have hdata : idf.data.take l = p.data := (strTake_eq_iff idf p l).1 hbeq
    rw [List.mem_range'_1] at hl
    have hi : idf.data.length = idf.length := rfl
    have hl2 : l ≤ idf.data.length := by omega
    have h1 : (idf.data.take l).length = p.data.length := by rw [hdata]
    rw [List.length_take, Nat.min_eq_left hl2] at h1
    exact h1
  rw [countP_unique _ p.length _ hnd huniq]
  by_cases hpre : p.data.isPrefixOf idf.data = true
  · rw [if_pos hpre]
    have hpre2 := (isPrefixOf_true_iff _ _).1 hpre
    have hple : p.data.length ≤ idf.data.length := hpre2.length_le
    have htake : p.data = idf.data.take p.data.length :=
      List.prefix_iff_eq_take.1 hpre2
    have hi : idf.data.length = idf.length := rfl
    have hpl : p.data.length = p.length := rfl
    have hcond : p.length ∈ List.range' 2 (idf.length - 1) ∧
        ((fun a => a == p) ∘ (fun l => strTake idf l)) p.length = true := by
      constructor
      · rw [List.mem_range'_1]
        omega
      · simp only [Function.comp, beq_iff_eq]
        rw [strTake_eq_iff]
        rw [← hpl]
        exact htake.symm
    rw [if_pos hcond]
  · rw [if_neg hpre]
    rw [if_neg ?_]
    rintro ⟨hmem, hbeq⟩
    simp only [Function.comp, beq_iff_eq] at hbeq
    have hdata : idf.data.take p.length = p.data :=
      (strTake_eq_iff idf p _).1 hbeq
    refine hpre ?_
    rw [isPrefixOf_true_iff, List.prefix_iff_eq_take]
    have hpl : p.data.length = p.length := rfl
    rw [hpl]
    exact hdata.symm

theorem prefixFrequency_get (s : Schema) (p : String) (hp : 2 ≤ p.length) :
    counterGet (prefixFrequency s) p = occCount s p := by
  unfold prefixFrequency occCount
  rw [counterGet_build, count_flatMap]
  have : (identOccs s).map (fun a => (prefixListOf a).count p)
      = (identOccs s).map
          (fun a => if p.data.isPrefixOf a.data = true then 1 else 0) :=
    List.map_congr_left (fun a _ => prefixListOf_count a p hp)
  rw [this, sum_ite_countP]

theorem occCount_mono (s : Schema) (p q : String)
    (h : p.data <+: q.data) : occCount s q ≤ occCount s p := by
  unfold occCount
  refine List.countP_mono_left ?_
  intro idf _ hq
  rw [isPrefixOf_true_iff] at hq ⊢
  exact h.trans hq

/-! ### The pruning loops as filters -/

theorem foldl_filter {α β : Type} (step : List α → β → List α)
    (q : β → α → Bool) (hstep : ∀ pr b, step pr b = pr.filter (q b)) :
    ∀ (l : List β) (pr : List α),
      l.foldl step pr = pr.filter (fun a => l.all (fun b => q b a)) := by
  intro l
  induction l with
  | nil => intro pr; simp
  | cons b rest ih =>
    intro pr
    rw [List.foldl_cons, hstep, ih, List.filter_filter]
    refine List.filter_congr ?_
    intro a _
    rw [List.all_cons]
    exact Bool.and_comm _ _

theorem pruneStep_eq (cnt pruned : List (String × Nat)) (pre : String) :
    pruneStep cnt pruned pre = pruned.filter (fun e =>
      (List.range pre.length).all (fun l =>
        !((e.1 == strTake pre l) &&
          decide (counterGet cnt (strTake pre l) ≤ counterGet cnt pre)))) := by
  unfold pruneStep
  refine foldl_filter _
    (fun l e => !((e.1 == strTake pre l) &&
      decide (counterGet cnt (strTake pre l) ≤ counterGet cnt pre)))
    ?_ (List.range pre.length) pruned
  intro pr l
  simp only []
  by_cases hc : counterGet cnt (strTake pre l) ≤ counterGet cnt pre
  · have hdec : decide (counterGet cnt (strTake pre l)
        ≤ counterGet cnt pre) = true := decide_eq_true hc
    by_cases ha : pr.any (fun e => e.1 == strTake pre l) = true
    · rw [if_pos ha, if_pos hc]
      refine List.filter_congr ?_
      intro e _
      simp [bne, hdec]
    · rw [if_neg ha]
      have ha2 : ∀ e ∈ pr, (e.1 == strTake pre l) = false := by
        intro e he
        cases hb : (e.1 == strTake pre l) with
        | false => rfl
        | true => exact absurd (List.any_eq_true.2 ⟨e, he, hb⟩) ha
      refine (List.filter_eq_self.2 ?_).symm
      intro e he
      rw [ha2 e he]
      simp
  · have hdec : decide (counterGet cnt (strTake pre l)
        ≤ counterGet cnt pre) = false := decide_eq_false hc
    have hfil : pr.filter (fun e => !((e.1 == strTake pre l) &&
        decide (counterGet cnt (strTake pre l) ≤ counterGet cnt pre))) = pr := by
      refine List.filter_eq_self.2 ?_
      intro e _
      rw [hdec]
      simp
    rw [hfil]
    by_cases ha : pr.any (fun e => e.1 == strTake pre l) = true
    · rw [if_pos ha, if_neg hc]
    · rw [if_neg ha]

theorem prunePrefixes_eq (cnt : List (String × Nat)) (tok : String → Nat) :
    prunePrefixes cnt tok = (prunedInit cnt tok).filter (fun e =>
      (cnt.map (fun x => x.1)).all (fun pre =>
        (List.range pre.length).all (fun l =>
          !((e.1 == strTake pre l) &&
            decide (counterGet cnt (strTake pre l) ≤ counterGet cnt pre))))) := by
  unfold prunePrefixes
  exact foldl_filter (pruneStep cnt) _
    (fun pr pre => pruneStep_eq cnt pr pre) _ _

theorem mem_prunePrefixes (cnt : List (String × Nat)) (tok : String → Nat)
    (e : String × Nat) :
    e ∈ prunePrefixes cnt tok ↔
      e ∈ cnt ∧ 1 < e.2 ∧ 1 < tok e.1 ∧
        ∀ pre ∈ cnt.map (fun x => x.1), ∀ l < pre.length,
          ¬ (e.1 = strTake pre l ∧
              counterGet cnt (strTake pre l) ≤ counterGet cnt pre) := by
  rw [prunePrefixes_eq, List.mem_filter]
  unfold prunedInit
  rw [List.mem_filter]
  constructor
  · rintro ⟨⟨h1, h2⟩, h3⟩
    rw [Bool.and_eq_true, decide_eq_true_eq, decide_eq_true_eq] at h2
    refine ⟨h1, h2.1, h2.2, ?_⟩
    intro pre hpre l hl h
    obtain ⟨hpe, hle⟩ := h
    have h4 := (List.all_eq_true.1 h3) pre hpre
    have h5 := (List.all_eq_true.1 h4) l (List.mem_range.2 hl)
    rw [Bool.not_eq_true', Bool.and_eq_false_iff] at h5
    rcases h5 with h5 | h5
    · rw [beq_eq_false_iff_ne] at h5
      exact h5 hpe
    · rw [decide_eq_false_iff_not] at h5
      exact h5 hle
  · rintro ⟨h1, h2, h3, h4⟩
    refine ⟨⟨h1, ?_⟩, ?_⟩
    · rw [Bool.and_eq_true, decide_eq_true_eq, decide_eq_true_eq]
      exact ⟨h2, h3⟩
    · rw [List.all_eq_true]
      intro pre hpre
      rw [List.all_eq_true]
      intro l hl
      rw [Bool.not_eq_true', Bool.and_eq_false_iff]
      by_cases he : e.1 = strTake pre l
      · right
        rw [decide_eq_false_iff_not]
        intro hle
        exact h4 pre hpre l (List.mem_range.1 hl) ⟨he, hle⟩
      · left
        rw [beq_eq_false_iff_ne]
        exact he

theorem prefixFrequency_keys (s : Schema) (n : String) :
    n ∈ (prefixFrequency s).map (fun e => e.1) ↔
      2 ≤ n.length ∧ 1 ≤ occCount s n := by
  unfold prefixFrequency
  rw [counter_mem_keys]
  constructor
  · intro h
    have hmem : n ∈ (identOccs s).flatMap prefixListOf :=
      List.count_pos_iff.1 h
    obtain ⟨idf, hidf, hn⟩ := List.mem_flatMap.1 hmem
    obtain ⟨hlen, hpre⟩ := mem_prefixListOf idf n hn
    refine ⟨hlen, ?_⟩
    have : 0 < occCount s n := by
      unfold occCount
      rw [List.countP_pos_iff]
      exact ⟨idf, hidf, hpre⟩
    omega
  · rintro ⟨hlen, hocc⟩
    have h1 : counterGet (counterAddList []
        ((identOccs s).flatMap prefixListOf)) n
        = ((identOccs s).flatMap prefixListOf).count n := counterGet_build _ n
    have h2 := prefixFrequency_get s n hlen
    unfold prefixFrequency at h2
    rw [h1] at h2
    omega

theorem prefixFrequency_entry (s : Schema) (e : String × Nat)
    (he : e ∈ prefixFrequency s) :
    2 ≤ e.1.length ∧ e.2 = occCount s e.1 := by
  have hkey : e.1 ∈ (prefixFrequency s).map (fun x => x.1) :=
    List.mem_map_of_mem _ he
  obtain ⟨hlen, -⟩ := (prefixFrequency_keys s e.1).1 hkey
  have hval : counterGet (prefixFrequency s) e.1 = e.2 :=
    counter_entry_val ((identOccs s).flatMap prefixListOf) e he
  exact ⟨hlen, hval.symm.trans (prefixFrequency_get s e.1 hlen)⟩

/-! ### Claim C7: `Schema.prefixes` -/

/-- Claim C7: for every schema and every tokenizer oracle, `prefixes`
returns exactly the strings of length at least two that occur as a prefix of
at least two identifier occurrences (table names, column names, annotations,
with multiplicity) and tokenize to more than one token, with every prefix
that is a proper prefix of a strictly longer counted prefix of equal
frequency removed; and the returned list is sorted by frequency in
descending order. -/
theorem claim_C7 (s : Schema) (tok : String → Nat) :
    (∀ p : String, p ∈ s.prefixes tok ↔
      (2 ≤ p.length ∧ 2 ≤ occCount s p ∧ 1 < tok p ∧
        ¬ ∃ q : String, 2 ≤ q.length ∧ 1 ≤ occCount s q ∧ p ≠ q ∧
          p.data <+: q.data ∧ occCount s q = occCount s p)) ∧
    (s.prefixes tok).Pairwise (fun a b => occCount s b ≤ occCount s a) := by
  constructor
  · intro p
    unfold Schema.prefixes
    rw [List.mem_map]
    constructor
    · rintro ⟨e, hes, hep⟩
      rw [List.mem_insertionSort] at hes
      obtain ⟨hcnt, hgt, htok, hdom⟩ := (mem_prunePrefixes _ tok e).1 hes
      obtain ⟨hlen, hval⟩ := prefixFrequency_entry s e hcnt
      subst hep
      refine ⟨hlen, by omega, htok, ?_⟩
      rintro ⟨q, hlq, hocq, hne, hpq, heq⟩
      have hqkey : q ∈ (prefixFrequency s).map (fun x => x.1) :=
        (prefixFrequency_keys s q).2 ⟨hlq, hocq⟩
      have hple : e.1.data.length ≤ q.data.length := hpq.length_le
      have hlt : e.1.length < q.length := by
        have hne2 : e.1.data.length ≠ q.data.length := by
          intro hx
          exact hne (String.ext (hpq.eq_of_length hx))
        have h1 : e.1.data.length = e.1.length := rfl
        have h2 : q.data.length = q.length := rfl
        omega
      have htq : strTake q e.1.length = e.1 := by
        refine String.ext ?_
        have h1 : e.1.data = q.data.take e.1.data.length :=
          List.prefix_iff_eq_take.1 hpq
        have h2 : e.1.data.length = e.1.length := rfl
        show q.data.take e.1.length = e.1.data
        rw [← h2]
        exact h1.symm
      refine hdom q hqkey e.1.length hlt ⟨htq.symm, ?_⟩
      rw [htq]
      have hcq : counterGet (prefixFrequency s) q = occCount s q :=
        prefixFrequency_get s q hlq
      have hcp : counterGet (prefixFrequency s) e.1 = occCount s e.1 :=
        prefixFrequency_get s e.1 hlen
      omega
    · rintro ⟨hlen, hocc, htok, hdom⟩
      have hkey : p ∈ (prefixFrequency s).map (fun x => x.1) :=
        (prefixFrequency_keys s p).2 ⟨hlen, by omega⟩
      obtain ⟨e, hcnt, hep⟩ := List.mem_map.1 hkey
      obtain ⟨-, hval⟩ := prefixFrequency_entry s e hcnt
      refine ⟨e, ?_, hep⟩
      rw [List.mem_insertionSort]
      refine (mem_prunePrefixes _ tok e).2 ⟨hcnt, ?_, ?_, ?_⟩
      · rw [hval, hep]
        omega
      · rw [hep]
        exact htok
      · intro pre hpre l hl h
        obtain ⟨hpe, hle⟩ := h
        obtain ⟨hlpre, hocpre⟩ := (prefixFrequency_keys s pre).1 hpre
        have hpdata : p.data = pre.data.take l := by
          have := congrArg String.data (hep.symm.trans hpe)
          exact this
        have hl2 : l ≤ pre.data.length := by
          have : pre.data.length = pre.length := rfl
          omega
        have hplen : p.length = l := by
          have h1 : p.data.length = (pre.data.take l).length := by
            rw [hpdata]
          rw [List.length_take, Nat.min_eq_left hl2] at h1
          exact h1
        have hppre : p.data <+: pre.data := by
          rw [hpdata]
          exact take_pre_self l pre.data
        have hnepre : p ≠ pre := by
          intro hx
          have : p.length = pre.length := by rw [hx]
          omega
        have hcp : counterGet (prefixFrequency s) p = occCount s p :=
          prefixFrequency_get s p hlen
        have hcpre : counterGet (prefixFrequency s) pre = occCount s pre :=
          prefixFrequency_get s pre hlpre
        have hstp : strTake pre l = p := by
          refine String.ext ?_
          exact hpdata.symm
        rw [hstp] at hle
        have hmono : occCount s pre ≤ occCount s p := occCount_mono s p pre hppre
        refine hdom ⟨pre, hlpre, hocpre, hnepre, hppre, ?_⟩
        omega
  · have hsorted := List.sorted_insertionSort countGe
      (prunePrefixes (prefixFrequency s) tok)
    unfold Schema.prefixes
    rw [List.pairwise_map]
    refine List.Pairwise.imp_of_mem ?_ hsorted
    intro a b ha hb hab
    rw [List.mem_insertionSort] at ha hb
    have hacnt := ((mem_prunePrefixes _ tok a).1 ha).1
    have hbcnt := ((mem_prunePrefixes _ tok b).1 hb).1
    obtain ⟨-, hav⟩ := prefixFrequency_entry s a hacnt
    obtain ⟨-, hbv⟩ := prefixFrequency_entry s b hbcnt
    have : b.2 ≤ a.2 := hab
    rw [hav, hbv] at this
    exact this

end SC
